import Mathlib

/-!
# Verification of `triton_dejavu/dejavu_storage.py`

A shallow embedding of the dejavu storage module (a content-addressed
persistent cache for autotuner results) and proofs of the specified
properties.

Modelling conventions:

* Python strings are modelled as `List Char` (`PyStr`).  Python's `str.split`,
  slicing, and f-string concatenation are modelled directly on lists.
* Python dicts are modelled as insertion-ordered association lists
  (`dictGet` / `dictSet`): an update of an existing key replaces the value in
  place, a new key is appended at the end, matching CPython dict semantics.
* Python `float` values appear in the source only as timing quantities which
  are initialised to zero, added (`total_bench_time_s += bench_time`),
  compared for equality, and tested against `float("inf")`.  They are
  modelled by the type `TFloat τ` with an explicit `inf` constructor over an
  arbitrary numeric carrier `τ` with decidable equality and addition; exact
  binary floating point rounding is irrelevant to every claim treated here.
* Fallible Python code (uncaught `ValueError`, `KeyError`, `IndexError`)
  is modelled with `Option`: a raised exception is `none`.
* Filesystem state is modelled as a map from the derived folder name to the
  parsed content of `<folder>/cache.json`; `json.dump`/`json.load` round-trip
  is taken as given, and the unused bookkeeping fields `_known_files` and
  `measured_timings` (which no code reads in an observable way) are omitted.
-/

set_option maxRecDepth 20000

namespace DejavuStorage

/-- A dynamically typed Python scalar value, as used for tuple elements and
configuration keyword arguments (ints, bools and strings). -/
inductive PVal : Type where
  | int (n : Int) : PVal
  | bool (b : Bool) : PVal
  | str (s : List Char) : PVal
deriving DecidableEq

/-- Python strings are modelled as lists of characters. -/
abbrev PyStr : Type := List Char

/-- Python dict lookup `d[k]` (as an `Option`; `none` models `KeyError`). -/
def dictGet {K V : Type} [DecidableEq K] : List (K × V) → K → Option V
  | [], _ => none
  | (k2, v) :: rest, k => if k2 = k then some v else dictGet rest k

/-- Python dict assignment `d[k] = v`: replace in place if the key exists,
append otherwise (CPython insertion-order semantics). -/
def dictSet {K V : Type} [DecidableEq K] : List (K × V) → K → V → List (K × V)
  | [], k, v => [(k, v)]
  | (k2, v2) :: rest, k, v =>
    if k2 = k then (k, v) :: rest else (k2, v2) :: dictSet rest k v

theorem dictGet_dictSet_self {K V : Type} [DecidableEq K]
    (l : List (K × V)) (k : K) (v : V) : dictGet (dictSet l k v) k = some v := by
  induction l with
  | nil => simp [dictGet, dictSet]
  | cons p rest ih =>
    obtain ⟨k2, v2⟩ := p
    by_cases hk : k2 = k
    · simp [dictGet, dictSet, hk]
    · simp [dictGet, dictSet, hk, ih]

theorem dictGet_dictSet_ne {K V : Type} [DecidableEq K]
    (l : List (K × V)) (k k' : K) (v : V) (h : k ≠ k') :
    dictGet (dictSet l k v) k' = dictGet l k' := by
  induction l with
  | nil => simp [dictGet, dictSet, h]
  | cons p rest ih =>
    obtain ⟨k2, v2⟩ := p
    by_cases hk : k2 = k
    · subst hk
      simp [dictGet, dictSet, h]
    · simp only [dictSet, if_neg hk, dictGet]
      by_cases hk' : k2 = k'
      · simp [hk']
      · simp [hk', ih]

theorem dictGet_eq_none_iff {K V : Type} [DecidableEq K]
    (l : List (K × V)) (k : K) :
    dictGet l k = none ↔ k ∉ l.map Prod.fst := by
  induction l with
  | nil => simp [dictGet]
  | cons p rest ih =>
    obtain ⟨k2, v2⟩ := p
    by_cases hk : k2 = k
    · simp [dictGet, hk]
    · simp [dictGet, hk, ih, Ne.symm hk]

/-- Appending a fresh key: `dictSet` on an absent key appends at the end. -/
theorem dictSet_eq_append {K V : Type} [DecidableEq K]
    (l : List (K × V)) (k : K) (v : V) (h : k ∉ l.map Prod.fst) :
    dictSet l k v = l ++ [(k, v)] := by
  induction l with
  | nil => simp [dictSet]
  | cons p rest ih =>
    obtain ⟨k2, v2⟩ := p
    simp only [List.map_cons, List.mem_cons] at h
    push_neg at h
    simp [dictSet, Ne.symm h.1, ih h.2]

theorem nodup_keys_dictSet {K V : Type} [DecidableEq K]
    (l : List (K × V)) (k : K) (v : V) (h : (l.map Prod.fst).Nodup) :
    ((dictSet l k v).map Prod.fst).Nodup := by
  induction l with
  | nil => simp [dictSet]
  | cons p rest ih =>
    obtain ⟨k2, v2⟩ := p
    simp only [List.map_cons, List.nodup_cons] at h
    by_cases hk : k2 = k
    · subst hk
      simpa [dictSet, List.nodup_cons] using h
    · have hkeys : (dictSet rest k v).map Prod.fst = rest.map Prod.fst ++ [k] ∨
          (dictSet rest k v).map Prod.fst = rest.map Prod.fst := by
        by_cases hmem : k ∈ rest.map Prod.fst
        · right
          clear ih h
          induction rest with
          | nil => simp at hmem
          | cons q rr ihr =>
            obtain ⟨k3, v3⟩ := q
            by_cases hk3 : k3 = k
            · simp [dictSet, hk3]
            · simp only [List.map_cons, List.mem_cons] at hmem
              rcases hmem with h1 | h1
              · exact absurd h1.symm hk3
              · simp [dictSet, hk3, ihr h1]
        · left
          rw [dictSet_eq_append rest k v hmem]
          simp
      simp only [dictSet, if_neg hk, List.map_cons, List.nodup_cons]
      refine ⟨?_, ih h.2⟩
      rcases hkeys with heq | heq
      · rw [heq]
        simp only [List.mem_append, List.mem_singleton]
        rintro (hc | hc)
        · exact h.1 hc
        · exact hk hc
      · rw [heq]
        exact h.1
/-- `begins_with sep s` models Python's check that `s` starts with `sep`. -/
def begins_with : PyStr → PyStr → Bool
  | [], _ => true
  | _ :: _, [] => false
  | c :: cs, d :: ds => c == d && begins_with cs ds

/-- Python `str.split(sep)` for a nonempty separator: leftmost,
non-overlapping matches.  Fuel-indexed so the recursion is structural; the
fuel is always instantiated with the length of the string, which suffices. -/
def pySplitAux (sep : PyStr) : Nat → PyStr → List PyStr
  | _, [] => [[]]
  | 0, s => [s]
  | fuel + 1, c :: rest =>
    if sep ≠ [] ∧ begins_with sep (c :: rest) = true then
      [] :: pySplitAux sep fuel (List.drop (sep.length - 1) rest)
    else
      match pySplitAux sep fuel rest with
      | [] => [[c]]
      | p :: ps => (c :: p) :: ps

/-- Python `s.split(sep)` (for the nonempty literal separators the source
uses). -/
def pySplit (sep s : PyStr) : List PyStr := pySplitAux sep s.length s

theorem begins_with_self_append (l t : PyStr) : begins_with l (l ++ t) = true := by
  induction l with
  | nil => rfl
  | cons c cs ih => simp [begins_with, ih]

theorem begins_with_cons_false (c0 : Char) (sep' : PyStr) (c : Char) (rest : PyStr)
    (h : c0 ≠ c) : begins_with (c0 :: sep') (c :: rest) = false := by
  simp [begins_with, h]

theorem pySplitAux_congr (sep : PyStr) :
    ∀ f g s, s.length ≤ f → s.length ≤ g → pySplitAux sep f s = pySplitAux sep g s := by
  intro f
  induction f using Nat.strong_induction_on with
  | _ f ih =>
    intro g s hf hg
    match s, f, g with
    | [], f, g => cases f <;> cases g <;> rfl
    | c :: rest, 0, g => simp at hf
    | c :: rest, f + 1, 0 => simp at hg
    | c :: rest, f + 1, g + 1 =>
      have hrf : rest.length ≤ f := by simpa using hf
      have hrg : rest.length ≤ g := by simpa using hg
      simp only [pySplitAux]
      by_cases hc : sep ≠ [] ∧ begins_with sep (c :: rest) = true
      · rw [if_pos hc, if_pos hc]
        have hlen : (List.drop (sep.length - 1) rest).length ≤ rest.length := by
          simp [Nat.sub_le]
        rw [ih f (Nat.lt_succ_self f) g _ (le_trans hlen hrf) (le_trans hlen hrg)]
      · rw [if_neg hc, if_neg hc]
        rw [ih f (Nat.lt_succ_self f) g rest hrf hrg]

theorem pySplitAux_no_occ (c0 : Char) (sep' : PyStr) :
    ∀ f s, s.length ≤ f → c0 ∉ s → pySplitAux (c0 :: sep') f s = [s] := by
  intro f
  induction f with
  | zero =>
    intro s hs _
    have : s = [] := List.eq_nil_of_length_eq_zero (Nat.le_zero.mp hs)
    subst this; rfl
  | succ f ih =>
    intro s hs hocc
    match s with
    | [] => rfl
    | c :: rest =>
      have hc : c0 ≠ c := fun h => hocc (h ▸ List.mem_cons_self c rest)
      have hrest : c0 ∉ rest := fun h => hocc (List.mem_cons_of_mem c h)
      have hrf : rest.length ≤ f := by simpa using hs
      simp only [pySplitAux, begins_with_cons_false c0 sep' c rest hc]
      rw [if_neg (by simp)]
      rw [ih rest hrf hrest]

/-- Splitting a string with no occurrence of (the first character of) the
separator returns the whole string. -/
theorem pySplit_no_occ (c0 : Char) (sep' s : PyStr) (h : c0 ∉ s) :
    pySplit (c0 :: sep') s = [s] :=
  pySplitAux_no_occ c0 sep' s.length s le_rfl h

theorem pySplitAux_append_sep (c0 : Char) (sep' : PyStr) :
    ∀ f p t, (p ++ (c0 :: sep') ++ t).length ≤ f → c0 ∉ p →
      pySplitAux (c0 :: sep') f (p ++ (c0 :: sep') ++ t) =
        p :: pySplit (c0 :: sep') t := by
  intro f
  induction f with
  | zero =>
    intro p t hlen _
    exfalso
    have : (p ++ (c0 :: sep') ++ t).length = 0 := Nat.le_zero.mp hlen
    simp [List.length_append] at this
  | succ f ih =>
    intro p t hlen hocc
    match p with
    | [] =>
      have hshape : ([] : PyStr) ++ (c0 :: sep') ++ t = c0 :: (sep' ++ t) := by simp
      rw [hshape]
      simp only [pySplitAux]
      rw [if_pos ⟨by simp, by simpa using begins_with_self_append (c0 :: sep') t⟩]
      have hdrop : List.drop ((c0 :: sep').length - 1) (sep' ++ t) = t := by
        simp only [List.length_cons, Nat.add_sub_cancel]
        exact List.drop_left sep' t
      rw [hdrop]
      have hft : t.length ≤ f := by
        have := hlen
        simp only [hshape, List.length_cons, List.length_append] at this ⊢
        omega
      rw [pySplitAux_congr (c0 :: sep') f t.length t hft le_rfl]
      rfl
    | a :: p' =>
      have hca : c0 ≠ a := fun h => hocc (h ▸ List.mem_cons_self a p')
      have hp' : c0 ∉ p' := fun h => hocc (List.mem_cons_of_mem a h)
      have hshape : (a :: p') ++ (c0 :: sep') ++ t = a :: (p' ++ (c0 :: sep') ++ t) := by
        simp
      rw [hshape]
      simp only [pySplitAux, begins_with_cons_false c0 sep' a _ hca]
      rw [if_neg (by simp)]
      have hlen' : (p' ++ (c0 :: sep') ++ t).length ≤ f := by
        have := hlen
        simp only [hshape, List.length_cons] at this
        omega
      rw [ih p' t hlen' hp']

/-- Splitting `p ++ sep ++ t` where `p` avoids the separator's first
character yields `p` followed by the split of `t`. -/
theorem pySplit_append_sep (c0 : Char) (sep' p t : PyStr) (h : c0 ∉ p) :
    pySplit (c0 :: sep') (p ++ (c0 :: sep') ++ t) = p :: pySplit (c0 :: sep') t :=
  pySplitAux_append_sep c0 sep' _ p t le_rfl h

/-- Splitting `name ++ sep ++ value` where neither side contains the
separator's first character yields exactly the two pieces. -/
theorem pySplit_two (c0 : Char) (sep' p t : PyStr) (hp : c0 ∉ p) (ht : c0 ∉ t) :
    pySplit (c0 :: sep') (p ++ (c0 :: sep') ++ t) = [p, t] := by
  rw [pySplit_append_sep c0 sep' p t hp, pySplit_no_occ c0 sep' t ht]

/-- `", ".join(parts)` (also used for the fixed textual templates). -/
def join_sep (sep : PyStr) : List PyStr → PyStr
  | [] => []
  | [p] => p
  | p :: q :: rest => p ++ sep ++ join_sep sep (q :: rest)

theorem pySplit_join_sep (c0 : Char) (sep' : PyStr) :
    ∀ parts, parts ≠ [] → (∀ p ∈ parts, c0 ∉ p) →
      pySplit (c0 :: sep') (join_sep (c0 :: sep') parts) = parts := by
  intro parts
  induction parts with
  | nil => intro h; exact absurd rfl h
  | cons p rest ih =>
    intro _ hocc
    match rest with
    | [] =>
      exact pySplit_no_occ c0 sep' p (hocc p (List.mem_cons_self p []))
    | q :: rest' =>
      have hjoin : join_sep (c0 :: sep') (p :: q :: rest') =
          p ++ (c0 :: sep') ++ join_sep (c0 :: sep') (q :: rest') := rfl
      rw [hjoin,
        pySplit_append_sep c0 sep' p _ (hocc p (List.mem_cons_self p _)),
        ih (by simp) (fun x hx => hocc x (List.mem_cons_of_mem p hx))]
/-- The decimal digit character for `d` (every use has `d < 10`). -/
def dchar : Nat → Char
  | 0 => '0'
  | 1 => '1'
  | 2 => '2'
  | 3 => '3'
  | 4 => '4'
  | 5 => '5'
  | 6 => '6'
  | 7 => '7'
  | 8 => '8'
  | _ => '9'

/-- Little-endian decimal digits of `n` (fuel-indexed; fuel `n` suffices). -/
def natDigitsAux : Nat → Nat → List Nat
  | 0, _ => []
  | fuel + 1, n => if n = 0 then [] else (n % 10) :: natDigitsAux fuel (n / 10)

/-- Python `str(n)` for a natural number. -/
def py_nat_str (n : Nat) : PyStr :=
  if n = 0 then ['0'] else ((natDigitsAux n n).map dchar).reverse

/-- Python `str(i)` for an integer. -/
def py_int_str (i : Int) : PyStr :=
  if i < 0 then '-' :: py_nat_str i.natAbs else py_nat_str i.toNat

def digit_val (c : Char) : Nat := c.toNat - 48

/-- No two adjacent underscores (part of Python's int-literal grammar). -/
def no_uu : List Char → Bool
  | a :: b :: rest => !(a == '_' && b == '_') && no_uu (b :: rest)
  | _ => true

/-- A valid Python decimal digit group: nonempty digits with optional single
underscore separators between digits. -/
def digits_group_ok (l : List Char) : Bool :=
  !l.isEmpty && l.all (fun c => c.isDigit || c == '_') &&
    (match l.head? with
     | some c => c.isDigit
     | none => false) &&
    (match l.getLast? with
     | some c => c.isDigit
     | none => false) &&
    no_uu l

def digits_to_nat (l : List Char) : Nat :=
  l.foldl (fun a c => if c = '_' then a else a * 10 + digit_val c) 0

def parse_digits (l : List Char) : Option Nat :=
  if digits_group_ok l then some (digits_to_nat l) else none

def strip_ws (l : PyStr) : PyStr :=
  ((l.dropWhile Char.isWhitespace).reverse.dropWhile Char.isWhitespace).reverse

def py_int_core : PyStr → Option Int
  | [] => none
  | c :: rest =>
    if c = '-' then
      match parse_digits rest with
      | some n => some (-(n : Int))
      | none => none
    else if c = '+' then
      match parse_digits rest with
      | some n => some ((n : Int))
      | none => none
    else
      match parse_digits (c :: rest) with
      | some n => some ((n : Int))
      | none => none

/-- Python `int(s)`: strip surrounding whitespace, optional sign, decimal
digits with optional single underscore separators.  `none` models a raised
`ValueError`.  (Non-ASCII digit forms are not modelled.) -/
def py_int (s : PyStr) : Option Int := py_int_core (strip_ws s)

theorem dchar_facts : ∀ d < 10, digit_val (dchar d) = d ∧ (dchar d).isDigit = true ∧
    dchar d ≠ '_' ∧ dchar d ≠ ',' ∧ dchar d ≠ ':' ∧ dchar d ≠ '-' ∧ dchar d ≠ '+' ∧
    (dchar d).isWhitespace = false ∧ dchar d ≠ '\'' ∧ dchar d ≠ '"' := by decide

theorem natDigitsAux_lt : ∀ f n, ∀ d ∈ natDigitsAux f n, d < 10 := by
  intro f
  induction f with
  | zero => intro n d hd; simp [natDigitsAux] at hd
  | succ f ih =>
    intro n d hd
    by_cases hn : n = 0
    · simp [natDigitsAux, hn] at hd
    · simp only [natDigitsAux, if_neg hn, List.mem_cons] at hd
      rcases hd with h | h
      · exact h ▸ Nat.mod_lt n (by norm_num)
      · exact ih (n / 10) d h

/-- Every character of `py_nat_str n` is a decimal digit character. -/
theorem mem_py_nat_str (n : Nat) : ∀ c ∈ py_nat_str n, ∃ d, d < 10 ∧ c = dchar d := by
  intro c hc
  by_cases hn : n = 0
  · simp only [py_nat_str, if_pos hn, List.mem_singleton] at hc
    exact ⟨0, by norm_num, hc⟩
  · simp only [py_nat_str, if_neg hn, List.mem_reverse, List.mem_map] at hc
    obtain ⟨d, hd, hcd⟩ := hc
    exact ⟨d, natDigitsAux_lt n n d hd, hcd.symm⟩

theorem py_nat_str_ne_nil (n : Nat) : py_nat_str n ≠ [] := by
  by_cases hn : n = 0
  · simp [py_nat_str, hn]
  · simp only [py_nat_str, if_neg hn]
    intro h
    rw [List.reverse_eq_nil_iff, List.map_eq_nil_iff] at h
    have : natDigitsAux n n = if n = 0 then [] else
        (n % 10) :: natDigitsAux (n - 1) (n / 10) := by
      match n, hn with
      | m + 1, _ => simp [natDigitsAux]
    rw [this, if_neg hn] at h
    exact List.cons_ne_nil _ _ h

theorem no_uu_of_no_underscore (l : List Char) (h : ∀ c ∈ l, c ≠ '_') :
    no_uu l = true := by
  induction l with
  | nil => rfl
  | cons a rest ih =>
    match rest with
    | [] => rfl
    | b :: rest' =>
      have ha : a ≠ '_' := h a (List.mem_cons_self _ _)
      simp only [no_uu, Bool.and_eq_true, Bool.not_eq_true']
      constructor
      · simp [ha]
      · exact ih (fun c hc => h c (List.mem_cons_of_mem a hc))

theorem digits_group_ok_py_nat_str (n : Nat) : digits_group_ok (py_nat_str n) = true := by
  have hmem := mem_py_nat_str n
  have hne := py_nat_str_ne_nil n
  simp only [digits_group_ok, Bool.and_eq_true]
  refine ⟨⟨⟨⟨by simpa [List.isEmpty_iff] using hne, ?_⟩, ?_⟩, ?_⟩, ?_⟩
  · rw [List.all_eq_true]
    intro c hc
    obtain ⟨d, hd, rfl⟩ := hmem c hc
    simp [(dchar_facts d hd).2.1]
  · match hh : (py_nat_str n).head? with
    | some c =>
      obtain ⟨d, hd, rfl⟩ := hmem c (List.mem_of_mem_head? hh)
      exact (dchar_facts d hd).2.1
    | none => exact absurd (List.head?_eq_none_iff.mp hh) hne
  · match hh : (py_nat_str n).getLast? with
    | some c =>
      obtain ⟨d, hd, rfl⟩ := hmem c (List.mem_of_mem_getLast? hh)
      exact (dchar_facts d hd).2.1
    | none => exact absurd (List.getLast?_eq_none_iff.mp hh) hne
  · exact no_uu_of_no_underscore _ (fun c hc => by
      obtain ⟨d, hd, rfl⟩ := hmem c hc
      exact (dchar_facts d hd).2.2.1)

theorem foldl_digits (fuel : Nat) :
    ∀ n acc, n ≤ fuel →
      List.foldl (fun a c => if c = '_' then a else a * 10 + digit_val c) acc
          (((natDigitsAux fuel n).map dchar).reverse) =
        acc * 10 ^ (natDigitsAux fuel n).length + n := by
  induction fuel with
  | zero =>
    intro n acc hn
    have : n = 0 := Nat.le_zero.mp hn
    subst this
    simp [natDigitsAux]
  | succ fuel ih =>
    intro n acc hn
    by_cases h0 : n = 0
    · subst h0
      simp [natDigitsAux]
    · have hdiv : n / 10 ≤ fuel := by
        have h1 : n / 10 < n := Nat.div_lt_self (Nat.pos_of_ne_zero h0) (by norm_num)
        omega
      have hmod := Nat.mod_lt n (show 0 < 10 by norm_num)
      simp only [natDigitsAux, if_neg h0, List.map_cons, List.reverse_cons,
        List.foldl_append, List.foldl_cons, List.foldl_nil, List.length_cons]
      rw [ih (n / 10) acc hdiv]
      have hfacts := dchar_facts (n % 10) hmod
      rw [if_neg hfacts.2.2.1, hfacts.1]
      rw [pow_succ]
      have := Nat.div_add_mod n 10
      ring_nf
      omega

theorem parse_digits_py_nat_str (n : Nat) : parse_digits (py_nat_str n) = some n := by
  rw [parse_digits, if_pos (digits_group_ok_py_nat_str n)]
  by_cases hn : n = 0
  · subst hn
    rfl
  · simp only [py_nat_str, if_neg hn, digits_to_nat]
    rw [foldl_digits n n 0 le_rfl]
    simp

theorem strip_ws_eq_self (l : PyStr) (h : ∀ c ∈ l, c.isWhitespace = false) :
    strip_ws l = l := by
  have h1 : l.dropWhile Char.isWhitespace = l := by
    match l with
    | [] => rfl
    | c :: rest => rw [List.dropWhile_cons, if_neg (by simp [h c (List.mem_cons_self _ _)])]
  rw [strip_ws, h1]
  have h2 : l.reverse.dropWhile Char.isWhitespace = l.reverse := by
    match hr : l.reverse with
    | [] => rfl
    | c :: rest =>
      have hc : c ∈ l := by
        have : c ∈ l.reverse := hr ▸ List.mem_cons_self _ _
        simpa using this
      rw [List.dropWhile_cons, if_neg (by simp [h c hc])]
  rw [h2, List.reverse_reverse]

/-- Round trip: Python `int(str(i)) = i`. -/
theorem py_int_py_int_str (i : Int) : py_int (py_int_str i) = some i := by
  have hstrip : strip_ws (py_int_str i) = py_int_str i := by
    apply strip_ws_eq_self
    intro c hc
    by_cases hi : i < 0
    · simp only [py_int_str, if_pos hi, List.mem_cons] at hc
      rcases hc with rfl | hc
      · decide
      · obtain ⟨d, hd, rfl⟩ := mem_py_nat_str _ c hc
        exact (dchar_facts d hd).2.2.2.2.2.2.2.1
    · simp only [py_int_str, if_neg hi] at hc
      obtain ⟨d, hd, rfl⟩ := mem_py_nat_str _ c hc
      exact (dchar_facts d hd).2.2.2.2.2.2.2.1
  by_cases hi : i < 0
  · have hshape : py_int_str i = '-' :: py_nat_str i.natAbs := by
      simp [py_int_str, hi]
    rw [py_int, hstrip, hshape, py_int_core]
    rw [if_pos rfl, parse_digits_py_nat_str]
    have hval : -((i.natAbs : Int)) = i := by omega
    exact congrArg some hval
  · have hshape : py_int_str i = py_nat_str i.toNat := by
      simp [py_int_str, hi]
    rw [py_int, hstrip, hshape]
    match hh : py_nat_str i.toNat with
    | [] => exact absurd hh (py_nat_str_ne_nil _)
    | c :: rest =>
      obtain ⟨d, hd, rfl⟩ := mem_py_nat_str _ c (hh ▸ List.mem_cons_self _ _)
      rw [py_int_core]
      rw [if_neg (dchar_facts d hd).2.2.2.2.2.1, if_neg (dchar_facts d hd).2.2.2.2.2.2.1]
      rw [← hh, parse_digits_py_nat_str]
      have hval : ((i.toNat : Int)) = i := by omega
      exact congrArg some hval

/-- Every character of `str(i)` is a digit or a leading minus sign. -/
theorem mem_py_int_str (i : Int) :
    ∀ c ∈ py_int_str i, c = '-' ∨ ∃ d, d < 10 ∧ c = dchar d := by
  intro c hc
  by_cases hi : i < 0
  · simp only [py_int_str, if_pos hi, List.mem_cons] at hc
    rcases hc with rfl | hc
    · exact Or.inl rfl
    · exact Or.inr (mem_py_nat_str _ c hc)
  · simp only [py_int_str, if_neg hi] at hc
    exact Or.inr (mem_py_nat_str _ c hc)

theorem comma_not_mem_py_int_str (i : Int) : ',' ∉ py_int_str i := by
  intro h
  rcases mem_py_int_str i ',' h with h1 | ⟨d, hd, h1⟩
  · exact absurd h1 (by decide)
  · exact (dchar_facts d hd).2.2.2.1 h1.symm

theorem colon_not_mem_py_int_str (i : Int) : ':' ∉ py_int_str i := by
  intro h
  rcases mem_py_int_str i ':' h with h1 | ⟨d, hd, h1⟩
  · exact absurd h1 (by decide)
  · exact (dchar_facts d hd).2.2.2.2.1 h1.symm
/-- Python `str.lower()` (ASCII case folding; every string compared by
`strtobool` in this module is ASCII). -/
def py_lower (s : PyStr) : PyStr := s.map Char.toLower

/-- `distutils.util.strtobool` (imported by the source): lowercase, then map
the fixed truthy literals to 1 and falsy literals to 0; anything else raises
`ValueError` (`none`). -/
def strtobool (s : PyStr) : Option Nat :=
  let v := py_lower s
  if v = "y".data ∨ v = "yes".data ∨ v = "t".data ∨ v = "true".data ∨
      v = "on".data ∨ v = "1".data then some 1
  else if v = "n".data ∨ v = "no".data ∨ v = "f".data ∨ v = "false".data ∨
      v = "off".data ∨ v = "0".data then some 0
  else none

/-- Python `str(b)` for a bool. -/
def py_bool_str (b : Bool) : PyStr := if b then "True".data else "False".data

/-- Python `str(v)` for a scalar (f-string interpolation). -/
def py_val_str : PVal → PyStr
  | .int n => py_int_str n
  | .bool b => py_bool_str b
  | .str s => s

/-- Python `repr(v)` as used by `str` on tuples: string elements are quoted.
(CPython's choice of double quotes for strings containing a single quote,
and escape sequences, are not modelled.) -/
def py_repr_val : PVal → PyStr
  | .int n => py_int_str n
  | .bool b => py_bool_str b
  | .str s => '\'' :: (s ++ ['\''])

/-- The separator `", "`. -/
def comma_sep : PyStr := [',', ' ']

/-- The separator `": "`. -/
def colon_sep : PyStr := [':', ' ']

/-- Python `str(t)` for a tuple of scalars: parenthesised, comma-separated
`repr`s, with the singleton trailing comma. -/
def py_tuple_str (t : List PVal) : PyStr :=
  match t with
  | [v] => ('(' :: py_repr_val v) ++ [',', ')']
  | _ => ('(' :: join_sep comma_sep (t.map py_repr_val)) ++ [')']

/-- `__int_config_args__`. -/
def int_config_args : List PyStr :=
  ["num_warps".data, "num_stages".data, "num_ctas".data]

/-- `__int_or_none_config_args__`. -/
def int_or_none_config_args : List PyStr := ["maxnreg".data]

/-- `__bool_config_args__`. -/
def bool_config_args : List PyStr := ["enable_warp_specialization".data]

/-- `__config_args__ = ["pre_hook"] + ints + bools + int_or_none`. -/
def config_args : List PyStr :=
  "pre_hook".data :: (int_config_args ++ bool_config_args ++ int_or_none_config_args)

/-- `__skip_config_args__`. -/
def skip_config_args : List PyStr := ["enable_persistent".data]

/-- The argument dict built by `_create_config_args` (a missing key is
`none`; `maxnreg` can be explicitly present with value `None`). -/
structure ConfigArgs where
  pre_hook : Option PyStr
  num_warps : Option Int
  num_stages : Option Int
  num_ctas : Option Int
  enable_warp_specialization : Option Bool
  maxnreg : Option (Option Int)
  kwargs : List (PyStr × PVal)
deriving DecidableEq

/-- The initial `ret = {"kwargs": {}}` dict. -/
def ConfigArgs.empty : ConfigArgs :=
  { pre_hook := none, num_warps := none, num_stages := none, num_ctas := none,
    enable_warp_specialization := none, maxnreg := none, kwargs := [] }

/-- `ret[sl[0]] = int(sl[1])` for a name from `__int_config_args__`. -/
def set_int_arg (a : ConfigArgs) (name : PyStr) (n : Int) : ConfigArgs :=
  if name = "num_warps".data then { a with num_warps := some n }
  else if name = "num_stages".data then { a with num_stages := some n }
  else { a with num_ctas := some n }

/-- One iteration of the `_create_config_args` loop on entry `e`. -/
def cca_entry (a : ConfigArgs) (e : PyStr) : Option ConfigArgs :=
  let sl := pySplit colon_sep e
  let name := sl.headD []
  if name ∈ skip_config_args then some a
  else
    match sl.get? 1 with
    | none => none
    | some v =>
      if name ∈ config_args then
        if name ∈ int_config_args then
          match py_int v with
          | some n => some (set_int_arg a name n)
          | none => none
        else if name ∈ bool_config_args then
          match strtobool v with
          | some n => some { a with enable_warp_specialization := some (n != 0) }
          | none => none
        else if name ∈ int_or_none_config_args then
          match py_int v with
          | some n => some { a with maxnreg := some (some n) }
          | none => some { a with maxnreg := some none }
        else some { a with pre_hook := some v }
      else
        match py_int v with
        | some n => some { a with kwargs := dictSet a.kwargs name (.int n) }
        | none =>
          match strtobool v with
          | some n => some { a with kwargs := dictSet a.kwargs name (.bool (n != 0)) }
          | none => some { a with kwargs := dictSet a.kwargs name (.str v) }

def cca_loop : List PyStr → ConfigArgs → Option ConfigArgs
  | [], a => some a
  | e :: rest, a =>
    match cca_entry a e with
    | some a2 => cca_loop rest a2
    | none => none

/-- `_create_config_args(v)`: split the encoded configuration string on
`", "` and parse every `field: value` entry.  `none` models an uncaught
exception (`IndexError` on a malformed entry, `ValueError` on a malformed
typed field). -/
def create_config_args (v : PyStr) : Option ConfigArgs :=
  cca_loop (pySplit comma_sep v) ConfigArgs.empty

def ct_loop : List PyStr → Option (List PVal)
  | [] => some []
  | e :: rest =>
    match e with
    | [] => none
    | c :: _ =>
      let x := if c = '\'' ∨ c = '"' then (e.drop 1).dropLast else e
      (ct_loop rest).map (fun l => PVal.str x :: l)

/-- `_create_tuple(k)`: strip the surrounding parentheses, split on `", "`,
strip quotes from quoted elements.  Every element is rebuilt as a Python
string (`PVal.str`), regardless of its original type.  `none` models the
`IndexError` raised on an empty element. -/
def create_tuple (k : PyStr) : Option (List PVal) :=
  ct_loop (pySplit comma_sep ((k.drop 1).dropLast))

/-- Modelled from the spec: the autotuning configuration object
(`triton.Config`), which is external to this repository — "a structured
value with a fixed set of typed control fields ... plus an open-ended
mapping of keyword arguments" (spec §3).  Control-field defaults follow the
external constructor. -/
structure Config where
  kwargs : List (PyStr × PVal)
  num_warps : Int
  num_ctas : Int
  num_stages : Int
  enable_warp_specialization : Bool
  enable_persistent : Bool
  maxnreg : Option Int
  pre_hook : PyStr
deriving DecidableEq

/-- The configuration with all-default control fields. -/
def default_config : Config :=
  { kwargs := [], num_warps := 4, num_ctas := 1, num_stages := 3,
    enable_warp_specialization := false, enable_persistent := false,
    maxnreg := none, pre_hook := [] }

/-- Modelled from the spec: `triton.Config(**args)` — construct a
configuration from the parsed argument dict, defaulting every missing field
(spec §4.3; the constructor itself is external to this repository).
`enable_persistent` is never among the parsed arguments (skip set), so it
always takes its default. -/
def config_of_args (a : ConfigArgs) : Config :=
  { kwargs := a.kwargs,
    num_warps := a.num_warps.getD default_config.num_warps,
    num_ctas := a.num_ctas.getD default_config.num_ctas,
    num_stages := a.num_stages.getD default_config.num_stages,
    enable_warp_specialization :=
      a.enable_warp_specialization.getD default_config.enable_warp_specialization,
    enable_persistent := default_config.enable_persistent,
    maxnreg := a.maxnreg.getD default_config.maxnreg,
    pre_hook := a.pre_hook.getD default_config.pre_hook }

/-- A `field: value` entry. -/
def kv_entry (name val : PyStr) : PyStr := name ++ colon_sep ++ val

/-- Python `str(maxnreg)`: a number, or `None`. -/
def maxnreg_str (m : Option Int) : PyStr :=
  match m with
  | some n => py_int_str n
  | none => "None".data

/-- Modelled from the spec: `str(config)` (ConfigCodec.encode, spec §4.3) —
"a deterministic, human-readable, comma-separated `field: value` string
covering all declared typed fields in a fixed order plus all
keyword-argument fields".  `triton.Config.__str__` is external to this
repository; keyword arguments are rendered first, then the declared fields
in a fixed order. -/
def config_str (c : Config) : PyStr :=
  join_sep comma_sep
    (c.kwargs.map (fun p => kv_entry p.1 (py_val_str p.2)) ++
      [kv_entry "num_warps".data (py_int_str c.num_warps),
       kv_entry "num_ctas".data (py_int_str c.num_ctas),
       kv_entry "num_stages".data (py_int_str c.num_stages),
       kv_entry "enable_warp_specialization".data
         (py_bool_str c.enable_warp_specialization),
       kv_entry "enable_persistent".data (py_bool_str c.enable_persistent),
       kv_entry "maxnreg".data (maxnreg_str c.maxnreg),
       kv_entry "pre_hook".data c.pre_hook])
/-- Modelled from the spec: `get_string_hash` delegates to
`hashlib.sha256(...).hexdigest()`, an external digest that the spec requires
only to be deterministic and collision-resistant (§4.2: "hashed with a
cryptographic digest (collision-resistant, ...)"; §3: "collisions are
acceptable only via the hash function's own collision resistance").  It is
modelled as the identity encoding — deterministic and collision-free, which
is exactly the idealisation the spec's path-uniqueness invariant appeals
to. -/
def get_string_hash (s : PyStr) : PyStr := s

/-- `_get_folder_name`.  `storage_tag` is the module-level global read once
from the tag environment variable; it is passed explicitly here. -/
def get_folder_name
    (storage_tag fn_name fn_hash configs_hash key_hash param_hash : PyStr) : PyStr :=
  let hash_of_hash := get_string_hash (fn_hash ++ "-".data ++ key_hash)
  fn_name ++ "/autotune_config-".data ++ param_hash ++
    "/kernel_configs-".data ++ configs_hash ++
    "/code_version-".data ++ hash_of_hash ++ "/".data ++ storage_tag

/-- A JIT function handle: its `str()` rendering and the identity hash that
`_wait_fn_hash` eventually returns.  The polling wait (`_get_fn_hash` /
`_wait_fn_hash`) always returns `fn.hash` once compilation has published it;
the polling itself is timing behaviour with no data effect, so the wait is
modelled as reading this field. -/
structure Fn where
  repr : PyStr
  hash : PyStr
deriving DecidableEq

/-- `fn_name = str(fn).split(":")[1][:-1]`; `none` models the `IndexError`
when the rendering contains no colon. -/
def fn_name_of (fn : Fn) : Option PyStr :=
  ((pySplit [':'] fn.repr).get? 1).map List.dropLast

/-- A Python float as used for timings: either `float("inf")` or a finite
value drawn from a carrier `τ` (see the module comment). -/
inductive TFloat (τ : Type) : Type where
  | inf : TFloat τ
  | val (x : τ) : TFloat τ
deriving DecidableEq

/-- A timing as passed to `add_autotuner_cache`: a bare float or already a
list (the "cuda stream feature of triton 3" compatibility branch). -/
inductive PyTimings (τ : Type) : Type where
  | scalar (x : TFloat τ) : PyTimings τ
  | listv (l : List (TFloat τ)) : PyTimings τ
deriving DecidableEq

/-- `vals = timings[key]` after the list-ification. -/
def timing_values {τ : Type} : PyTimings τ → List (TFloat τ)
  | .scalar x => [x]
  | .listv l => l

/-- `float("inf") in vals`. -/
def has_inf {τ : Type} : List (TFloat τ) → Bool
  | [] => false
  | .inf :: _ => true
  | .val _ :: rest => has_inf rest

/-- The `nt` record stored under `"timings"` for one runtime key. -/
structure TimingRecord (τ : Type) where
  values : List (TFloat τ)
  labels : List PyStr
  rep_t_ms : τ
  warmup_t_ms : τ
deriving DecidableEq

/-- A Storage Record: the parsed content of one `cache.json`. -/
structure CacheJson (τ : Type) where
  signature : PyStr
  total_bench_time_s : τ
  evaluated_configs : Nat
  cache : List (PyStr × PyStr)
  timings : List (PyStr × TimingRecord τ)
deriving DecidableEq

/-- `_get_cache_template(fn, configs_len)`. -/
def get_cache_template {τ : Type} [Zero τ] (fn : Fn) (configs_len : Nat) :
    CacheJson τ :=
  { signature := fn.repr, total_bench_time_s := 0,
    evaluated_configs := configs_len, cache := [], timings := [] }

/-- The mutable state of a `DejavuStorage` object together with the on-disk
record tree: `disk` maps a folder name to the parsed `cache.json` stored
below it (the constant storage-path root is elided). -/
structure StoreState (τ : Type) where
  fn_storage : List (PyStr × CacheJson τ)
  used_configs : List (PyStr × List Config)
  disk : List (PyStr × CacheJson τ)
deriving DecidableEq

/-- The `__store__` write loop: dump every in-memory record to its file. -/
def write_all {τ : Type} :
    List (PyStr × CacheJson τ) → List (PyStr × CacheJson τ) →
      List (PyStr × CacheJson τ)
  | [], disk => disk
  | (f, r) :: rest, disk => write_all rest (dictSet disk f r)

/-- `DejavuStorage.__store__`. -/
def store_all {τ : Type} (s : StoreState τ) : StoreState τ :=
  { s with disk := write_all s.fn_storage s.disk }

/-- The body of the `for key, config in cache.items()` loop of
`add_autotuner_cache`, folded over the result dict: returns the updated
record, the updated used-config list and the `changes_made` flag.  `none`
models the `KeyError` when a not-yet-cached key has no timings entry. -/
def add_loop {τ : Type} [DecidableEq τ] (timings : List (List PVal × PyTimings τ))
    (repetitiont warmupt : τ) (configs_len : Nat) :
    List (List PVal × Config) → CacheJson τ → List Config → Bool →
      Option (CacheJson τ × List Config × Bool)
  | [], cj, used, ch => some (cj, used, ch)
  | (key, config) :: rest, cj, used, ch =>
    if (dictGet cj.cache (py_tuple_str key)).isSome then
      add_loop timings repetitiont warmupt configs_len rest cj used ch
    else
      match dictGet timings key with
      | none => none
      | some tv =>
        let vals := timing_values tv
        let labels := if vals.length = 1 then ["ms".data]
          else ["ms".data, "min_ms".data, "max_ms".data]
        let nt : TimingRecord τ :=
          { values := vals, labels := labels, rep_t_ms := repetitiont,
            warmup_t_ms := warmupt }
        if has_inf nt.values then
          add_loop timings repetitiont warmupt configs_len rest cj used ch
        else
          let cj2 : CacheJson τ :=
            { cj with
              cache := dictSet cj.cache (py_tuple_str key) (config_str config),
              timings := dictSet cj.timings (py_tuple_str key) nt,
              evaluated_configs := configs_len }
          let used2 := if config ∈ used then used else used ++ [config]
          add_loop timings repetitiont warmupt configs_len rest cj2 used2 true

/-- `add_autotuner_cache` after `folder_name` has been derived. -/
def add_with_folder {τ : Type} [DecidableEq τ] [Zero τ] [Add τ]
    (s : StoreState τ) (folder : PyStr) (cache : List (List PVal × Config))
    (fn : Fn) (configs_len : Nat) (timings : List (List PVal × PyTimings τ))
    (repetitiont warmupt bench_time : τ) : Option (StoreState τ) :=
  let start : Option (CacheJson τ × List Config) :=
    match dictGet s.fn_storage folder with
    | none => some (get_cache_template fn configs_len, [])
    | some cj =>
      match dictGet s.used_configs folder with
      | none => none
      | some u => some (cj, u)
  match start with
  | none => none
  | some (cache_json, tmp_used) =>
    match add_loop timings repetitiont warmupt configs_len cache cache_json
        tmp_used false with
    | none => none
    | some (cj2, used2, changes_made) =>
      if changes_made then
        let cj3 :=
          { cj2 with total_bench_time_s := cj2.total_bench_time_s + bench_time }
        let fs2 := dictSet s.fn_storage folder cj3
        let uc2 := dictSet s.used_configs folder used2
        some (store_all { s with fn_storage := fs2, used_configs := uc2 })
      else some s

/-- `DejavuStorage.add_autotuner_cache`.  `none` models an uncaught
exception. -/
def add_autotuner_cache {τ : Type} [DecidableEq τ] [Zero τ] [Add τ]
    (s : StoreState τ) (storage_tag : PyStr) (cache : List (List PVal × Config))
    (fn : Fn) (configs_hash key_hash param_hash : PyStr) (configs_len : Nat)
    (timings : List (List PVal × PyTimings τ))
    (repetitiont warmupt bench_time : τ) : Option (StoreState τ) :=
  match fn_name_of fn with
  | none => none
  | some fn_name =>
    add_with_folder s
      (get_folder_name storage_tag fn_name fn.hash configs_hash key_hash param_hash)
      cache fn configs_len timings repetitiont warmupt bench_time

/-- The decode loop of `restore_autotuner_cache` over the stored cache
entries. -/
def restore_loop :
    List (PyStr × PyStr) → List (List PVal × Config) → List Config →
      Option (List (List PVal × Config) × List Config)
  | [], ret, used => some (ret, used)
  | (k, v) :: rest, ret, used =>
    match create_tuple k, create_config_args v with
    | some kt, some va =>
      let c := config_of_args va
      restore_loop rest (dictSet ret kt c) (if c ∈ used then used else used ++ [c])
    | _, _ => none

/-- `restore_autotuner_cache` after `folder_name` has been derived. -/
def restore_with_folder {τ : Type} [DecidableEq τ] [Zero τ]
    (s : StoreState τ) (folder : PyStr) (fn : Fn) :
    Option (List (List PVal × Config) × StoreState τ) :=
  match dictGet s.disk folder with
  | none =>
    let cj : CacheJson τ := get_cache_template fn 0
    let fs2 := dictSet s.fn_storage folder cj
    let uc2 := dictSet s.used_configs folder []
    some ([], store_all { s with fn_storage := fs2, used_configs := uc2 })
  | some cj =>
    let s1 := { s with fn_storage := dictSet s.fn_storage folder cj }
    match restore_loop cj.cache [] [] with
    | none => none
    | some (ret, used) =>
      some (ret, { s1 with used_configs := dictSet s1.used_configs folder used })

/-- `DejavuStorage.restore_autotuner_cache`: the decoded mapping plus the
new state.  `none` models an uncaught exception (a decode failure in the
source leaves partially mutated in-memory state behind; only successful
calls are reasoned about below). -/
def restore_autotuner_cache {τ : Type} [DecidableEq τ] [Zero τ]
    (s : StoreState τ) (storage_tag : PyStr) (fn : Fn)
    (configs_hash key_hash param_hash : PyStr) :
    Option (List (List PVal × Config) × StoreState τ) :=
  match fn_name_of fn with
  | none => none
  | some fn_name =>
    restore_with_folder s
      (get_folder_name storage_tag fn_name fn.hash configs_hash key_hash param_hash)
      fn

/-- `DejavuStorage.get_used_configs`; `none` models the `KeyError` when the
identity has no entry in `self.used_configs`. -/
def get_used_configs {τ : Type} [DecidableEq τ] (s : StoreState τ)
    (storage_tag : PyStr) (fn : Fn) (configs_hash key_hash param_hash : PyStr) :
    Option (List Config) :=
  match fn_name_of fn with
  | none => none
  | some fn_name =>
    dictGet s.used_configs
      (get_folder_name storage_tag fn_name fn.hash configs_hash key_hash param_hash)

/-- `__storage_env_var__`. -/
def storage_env_var : PyStr := "TRITON_DEJAVU_STORAGE".data

/-- The message of the exception raised when no storage root is
configured. -/
def missing_storage_msg : PyStr :=
  "[triton-dejavu] The environment variable ".data ++ storage_env_var ++
    " must be set for triton-dejavu!".data

/-- The start of `DejavuStorage.__init__`:
`os.environ.get(__storage_env_var__, "none")` followed by the
missing-configuration check — the accepted storage root, or the raised
exception's message.  (The subsequent identifier lookup and directory
creation are filesystem I/O with no bearing on the claims.) -/
def dejavu_init_storage_root (env : List (PyStr × PyStr)) : Except PyStr PyStr :=
  let sp := (dictGet env storage_env_var).getD "none".data
  if sp = "none".data then Except.error missing_storage_msg else Except.ok sp
/-! ## Concrete scenario data used by counterexamples and witnesses -/

/-- A concrete JIT function handle (`str(fn)` renders as
`JITFunction(<module>:<name>)`). -/
def fn0 : Fn := { repr := "JITFunction(mod:kern)".data, hash := "codehash".data }

/-- A concrete storage tag (the default tag value). -/
def tag0 : PyStr := "default".data

/-- The fresh in-process state over an empty on-disk tree. -/
def s0 : StoreState Int := { fn_storage := [], used_configs := [], disk := [] }

/-- The runtime key `(4, 4)` with integer elements. -/
def key44 : List PVal := [PVal.int 4, PVal.int 4]

/-- The same runtime key as decoded from disk: both elements are strings. -/
def key44s : List PVal := [PVal.str "4".data, PVal.str "4".data]

/-- `Config(num_warps=4)`: every control field at its default. -/
def cfg4 : Config := default_config

/-- The §8 end-to-end scenario: `restore` on a fresh identity, `add` of the
single result `(4,4) ↦ Config(num_warps=4)` with a finite timing, then
`restore` again; the value is the mapping the final restore returns. -/
def c6_run : Option (List (List PVal × Config)) :=
  match restore_autotuner_cache s0 tag0 fn0 "cfgA".data "keyA".data "parA".data with
  | none => none
  | some (_, s1) =>
    match add_autotuner_cache s1 tag0 [(key44, cfg4)] fn0 "cfgA".data "keyA".data
        "parA".data 1 [(key44, PyTimings.scalar (TFloat.val 1))] 10 5 1 with
    | none => none
    | some s2 =>
      (restore_autotuner_cache s2 tag0 fn0 "cfgA".data "keyA".data
        "parA".data).map Prod.fst
/-! ## Properties of the add loop -/

section AddLoopLemmas

variable {τ : Type} [DecidableEq τ] (tms : List (List PVal × PyTimings τ))
variable (rep wu : τ) (cl : Nat)

/-- An existing cache entry survives the add loop with its value intact. -/
theorem add_loop_preserves_cache :
    ∀ (l : List (List PVal × Config)) (cj : CacheJson τ) (used : List Config)
      (ch : Bool) (cj2 : CacheJson τ) (used2 : List Config) (ch2 : Bool),
      add_loop tms rep wu cl l cj used ch = some (cj2, used2, ch2) →
      ∀ k v, dictGet cj.cache k = some v → dictGet cj2.cache k = some v := by
  intro l
  induction l with
  | nil =>
    intro cj used ch cj2 used2 ch2 h k v hk
    simp only [add_loop, Option.some.injEq, Prod.mk.injEq] at h
    obtain ⟨rfl, rfl, rfl⟩ := h
    exact hk
  | cons p rest ih =>
    obtain ⟨key, config⟩ := p
    intro cj used ch cj2 used2 ch2 h k v hk
    simp only [add_loop] at h
    by_cases hmem : (dictGet cj.cache (py_tuple_str key)).isSome = true
    · rw [if_pos hmem] at h
      exact ih cj used ch cj2 used2 ch2 h k v hk
    · rw [if_neg hmem] at h
      cases htv : dictGet tms key with
      | none => rw [htv] at h; exact absurd h (by simp)
      | some tv =>
        rw [htv] at h
        simp only [] at h
        by_cases hinf : has_inf (timing_values tv) = true
        · rw [if_pos hinf] at h
          exact ih cj used ch cj2 used2 ch2 h k v hk
        · rw [if_neg hinf] at h
          have hknt : k ≠ py_tuple_str key := by
            intro heq
            exact hmem (by rw [← heq, hk]; rfl)
          refine ih _ _ _ _ _ _ h k v ?_
          show dictGet (dictSet cj.cache (py_tuple_str key) (config_str config)) k =
            some v
          rw [dictGet_dictSet_ne cj.cache (py_tuple_str key) k _ (Ne.symm hknt)]
          exact hk

/-- The add loop never touches `total_bench_time_s` or `signature`. -/
theorem add_loop_total_sig :
    ∀ (l : List (List PVal × Config)) (cj : CacheJson τ) (used : List Config)
      (ch : Bool) (cj2 : CacheJson τ) (used2 : List Config) (ch2 : Bool),
      add_loop tms rep wu cl l cj used ch = some (cj2, used2, ch2) →
      cj2.total_bench_time_s = cj.total_bench_time_s ∧ cj2.signature = cj.signature := by
  intro l
  induction l with
  | nil =>
    intro cj used ch cj2 used2 ch2 h
    simp only [add_loop, Option.some.injEq, Prod.mk.injEq] at h
    obtain ⟨rfl, rfl, rfl⟩ := h
    exact ⟨rfl, rfl⟩
  | cons p rest ih =>
    obtain ⟨key, config⟩ := p
    intro cj used ch cj2 used2 ch2 h
    simp only [add_loop] at h
    by_cases hmem : (dictGet cj.cache (py_tuple_str key)).isSome = true
    · rw [if_pos hmem] at h
      exact ih cj used ch cj2 used2 ch2 h
    · rw [if_neg hmem] at h
      cases htv : dictGet tms key with
      | none => rw [htv] at h; exact absurd h (by simp)
      | some tv =>
        rw [htv] at h
        simp only [] at h
        by_cases hinf : has_inf (timing_values tv) = true
        · rw [if_pos hinf] at h
          exact ih cj used ch cj2 used2 ch2 h
        · rw [if_neg hinf] at h
          have hih := ih _ _ _ _ _ _ h
          exact hih

/-- The `changes_made` flag is never reset. -/
theorem add_loop_flag_mono :
    ∀ (l : List (List PVal × Config)) (cj : CacheJson τ) (used : List Config)
      (cj2 : CacheJson τ) (used2 : List Config) (ch2 : Bool),
      add_loop tms rep wu cl l cj used true = some (cj2, used2, ch2) → ch2 = true := by
  intro l
  induction l with
  | nil =>
    intro cj used cj2 used2 ch2 h
    simp only [add_loop, Option.some.injEq, Prod.mk.injEq] at h
    exact h.2.2.symm
  | cons p rest ih =>
    obtain ⟨key, config⟩ := p
    intro cj used cj2 used2 ch2 h
    simp only [add_loop] at h
    by_cases hmem : (dictGet cj.cache (py_tuple_str key)).isSome = true
    · rw [if_pos hmem] at h
      exact ih cj used cj2 used2 ch2 h
    · rw [if_neg hmem] at h
      cases htv : dictGet tms key with
      | none => rw [htv] at h; exact absurd h (by simp)
      | some tv =>
        rw [htv] at h
        simp only [] at h
        by_cases hinf : has_inf (timing_values tv) = true
        · rw [if_pos hinf] at h
          exact ih cj used cj2 used2 ch2 h
        · rw [if_neg hinf] at h
          exact ih _ _ _ _ _ h

end AddLoopLemmas

/-- The per-key skip condition of the add loop against a fixed record: the
runtime-key's encoding is already cached, or its timing sample contains an
infinite value. -/
def key_skipped_b {τ : Type} [DecidableEq τ] (cj : CacheJson τ)
    (tms : List (List PVal × PyTimings τ)) (p : List PVal × Config) : Bool :=
  (dictGet cj.cache (py_tuple_str p.1)).isSome ||
    (match dictGet tms p.1 with
     | some tv => has_inf (timing_values tv)
     | none => false)

section AddLoopLemmas2

variable {τ : Type} [DecidableEq τ] (tms : List (List PVal × PyTimings τ))
variable (rep wu : τ) (cl : Nat)

/-- If every result key is skipped, the loop changes nothing. -/
theorem add_loop_skip_all :
    ∀ (l : List (List PVal × Config)) (cj : CacheJson τ) (used : List Config)
      (ch : Bool), (∀ p ∈ l, key_skipped_b cj tms p = true) →
      add_loop tms rep wu cl l cj used ch = some (cj, used, ch) := by
  intro l
  induction l with
  | nil => intro cj used ch _; rfl
  | cons p rest ih =>
    obtain ⟨key, config⟩ := p
    intro cj used ch hskip
    have hp := hskip (key, config) (List.mem_cons_self _ _)
    have hrest : ∀ p ∈ rest, key_skipped_b cj tms p = true :=
      fun q hq => hskip q (List.mem_cons_of_mem _ hq)
    simp only [add_loop]
    by_cases hmem : (dictGet cj.cache (py_tuple_str key)).isSome = true
    · rw [if_pos hmem]
      exact ih cj used ch hrest
    · rw [if_neg hmem]
      simp only [key_skipped_b, Bool.or_eq_true] at hp
      rcases hp with hp | hp
      · exact absurd hp hmem
      · cases htv : dictGet tms key with
        | none => rw [htv] at hp; simp at hp
        | some tv =>
          rw [htv] at hp
          simp only []
          rw [if_pos hp]
          exact ih cj used ch hrest

/-- If the loop finishes with `changes_made = false`, it changed nothing and
every result key satisfied the skip condition against the initial record. -/
theorem add_loop_no_change :
    ∀ (l : List (List PVal × Config)) (cj : CacheJson τ) (used : List Config)
      (cj2 : CacheJson τ) (used2 : List Config),
      add_loop tms rep wu cl l cj used false = some (cj2, used2, false) →
      cj2 = cj ∧ used2 = used ∧ ∀ p ∈ l, key_skipped_b cj tms p = true := by
  intro l
  induction l with
  | nil =>
    intro cj used cj2 used2 h
    simp only [add_loop, Option.some.injEq, Prod.mk.injEq] at h
    exact ⟨h.1.symm, h.2.1.symm, by simp⟩
  | cons p rest ih =>
    obtain ⟨key, config⟩ := p
    intro cj used cj2 used2 h
    simp only [add_loop] at h
    by_cases hmem : (dictGet cj.cache (py_tuple_str key)).isSome = true
    · rw [if_pos hmem] at h
      obtain ⟨h1, h2, h3⟩ := ih cj used cj2 used2 h
      refine ⟨h1, h2, ?_⟩
      intro q hq
      rcases List.mem_cons.mp hq with rfl | hq'
      · simp [key_skipped_b, hmem]
      · exact h3 q hq'
    · rw [if_neg hmem] at h
      cases htv : dictGet tms key with
      | none => rw [htv] at h; exact absurd h (by simp)
      | some tv =>
        rw [htv] at h
        simp only [] at h
        by_cases hinf : has_inf (timing_values tv) = true
        · rw [if_pos hinf] at h
          obtain ⟨h1, h2, h3⟩ := ih cj used cj2 used2 h
          refine ⟨h1, h2, ?_⟩
          intro q hq
          rcases List.mem_cons.mp hq with rfl | hq'
          · simp [key_skipped_b, htv, hinf]
          · exact h3 q hq'
        · rw [if_neg hinf] at h
          exact absurd (add_loop_flag_mono tms rep wu cl _ _ _ _ _ _ h) (by simp)

/-- Dropping a result key whose timing sample is infinite does not change
the outcome of the add loop at all. -/
theorem add_loop_erase_inf_key (k : List PVal) (tv : PyTimings τ)
    (htv : dictGet tms k = some tv) (hinf : has_inf (timing_values tv) = true) :
    ∀ (l : List (List PVal × Config)) (cj : CacheJson τ) (used : List Config)
      (ch : Bool),
      add_loop tms rep wu cl (l.filter (fun p => p.1 ≠ k)) cj used ch =
        add_loop tms rep wu cl l cj used ch := by
  intro l
  induction l with
  | nil => intro cj used ch; rfl
  | cons p rest ih =>
    obtain ⟨key, config⟩ := p
    intro cj used ch
    by_cases hpk : key = k
    · subst hpk
      have hfilter : ((key, config) :: rest).filter (fun p => p.1 ≠ key) =
          rest.filter (fun p => p.1 ≠ key) := by
        simp [List.filter_cons]
      rw [hfilter, ih cj used ch]
      symm
      simp only [add_loop]
      by_cases hmem : (dictGet cj.cache (py_tuple_str key)).isSome = true
      · rw [if_pos hmem]
      · rw [if_neg hmem, htv]
        simp only []
        rw [if_pos hinf]
    · have hfilter : ((key, config) :: rest).filter (fun p => p.1 ≠ k) =
          (key, config) :: rest.filter (fun p => p.1 ≠ k) := by
        simp [List.filter_cons, hpk]
      rw [hfilter]
      simp only [add_loop]
      by_cases hmem : (dictGet cj.cache (py_tuple_str key)).isSome = true
      · rw [if_pos hmem, if_pos hmem]
        exact ih cj used ch
      · rw [if_neg hmem, if_neg hmem]
        cases htv2 : dictGet tms key with
        | none => rfl
        | some tv2 =>
          simp only []
          by_cases hinf2 : has_inf (timing_values tv2) = true
          · rw [if_pos hinf2, if_pos hinf2]
            exact ih cj used ch
          · rw [if_neg hinf2, if_neg hinf2]
            exact ih _ _ _

/-- A key whose timing sample is infinite gets no cache and no timings entry
from the loop (assuming no other key of this call collides with its string
encoding). -/
theorem add_loop_no_create (k : List PVal) (tv : PyTimings τ)
    (htv : dictGet tms k = some tv) (hinf : has_inf (timing_values tv) = true) :
    ∀ (l : List (List PVal × Config)) (cj : CacheJson τ) (used : List Config)
      (ch : Bool) (cj2 : CacheJson τ) (used2 : List Config) (ch2 : Bool),
      (∀ p ∈ l, py_tuple_str p.1 = py_tuple_str k → p.1 = k) →
      dictGet cj.cache (py_tuple_str k) = none →
      dictGet cj.timings (py_tuple_str k) = none →
      add_loop tms rep wu cl l cj used ch = some (cj2, used2, ch2) →
      dictGet cj2.cache (py_tuple_str k) = none ∧
        dictGet cj2.timings (py_tuple_str k) = none := by
  intro l
  induction l with
  | nil =>
    intro cj used ch cj2 used2 ch2 _ hc ht h
    simp only [add_loop, Option.some.injEq, Prod.mk.injEq] at h
    obtain ⟨rfl, rfl, rfl⟩ := h
    exact ⟨hc, ht⟩
  | cons p rest ih =>
    obtain ⟨key, config⟩ := p
    intro cj used ch cj2 used2 ch2 hcoll hc ht h
    have hcoll' : ∀ p ∈ rest, py_tuple_str p.1 = py_tuple_str k → p.1 = k :=
      fun q hq => hcoll q (List.mem_cons_of_mem _ hq)
    simp only [add_loop] at h
    by_cases hmem : (dictGet cj.cache (py_tuple_str key)).isSome = true
    · rw [if_pos hmem] at h
      exact ih cj used ch cj2 used2 ch2 hcoll' hc ht h
    · rw [if_neg hmem] at h
      cases htv2 : dictGet tms key with
      | none => rw [htv2] at h; exact absurd h (by simp)
      | some tv2 =>
        rw [htv2] at h
        simp only [] at h
        by_cases hinf2 : has_inf (timing_values tv2) = true
        · rw [if_pos hinf2] at h
          exact ih cj used ch cj2 used2 ch2 hcoll' hc ht h
        · rw [if_neg hinf2] at h
          have hne : py_tuple_str key ≠ py_tuple_str k := by
            intro heq
            have hkk : key = k := hcoll (key, config) (List.mem_cons_self _ _) heq
            rw [hkk, htv] at htv2
            obtain rfl : tv = tv2 := by injection htv2
            exact hinf2 hinf
          refine ih _ _ _ cj2 used2 ch2 hcoll' ?_ ?_ h
          · show dictGet (dictSet cj.cache (py_tuple_str key) (config_str config))
              (py_tuple_str k) = none
            rw [dictGet_dictSet_ne _ _ _ _ hne]
            exact hc
          · show dictGet (dictSet cj.timings (py_tuple_str key) _)
              (py_tuple_str k) = none
            rw [dictGet_dictSet_ne _ _ _ _ hne]
            exact ht

/-- The loop keeps the cache and timings key lists identical. -/
theorem add_loop_keys :
    ∀ (l : List (List PVal × Config)) (cj : CacheJson τ) (used : List Config)
      (ch : Bool) (cj2 : CacheJson τ) (used2 : List Config) (ch2 : Bool),
      cj.cache.map Prod.fst = cj.timings.map Prod.fst →
      add_loop tms rep wu cl l cj used ch = some (cj2, used2, ch2) →
      cj2.cache.map Prod.fst = cj2.timings.map Prod.fst := by
  intro l
  induction l with
  | nil =>
    intro cj used ch cj2 used2 ch2 hkeys h
    simp only [add_loop, Option.some.injEq, Prod.mk.injEq] at h
    obtain ⟨rfl, rfl, rfl⟩ := h
    exact hkeys
  | cons p rest ih =>
    obtain ⟨key, config⟩ := p
    intro cj used ch cj2 used2 ch2 hkeys h
    simp only [add_loop] at h
    by_cases hmem : (dictGet cj.cache (py_tuple_str key)).isSome = true
    · rw [if_pos hmem] at h
      exact ih cj used ch cj2 used2 ch2 hkeys h
    · rw [if_neg hmem] at h
      cases htv2 : dictGet tms key with
      | none => rw [htv2] at h; exact absurd h (by simp)
      | some tv2 =>
        rw [htv2] at h
        simp only [] at h
        by_cases hinf2 : has_inf (timing_values tv2) = true
        · rw [if_pos hinf2] at h
          exact ih cj used ch cj2 used2 ch2 hkeys h
        · rw [if_neg hinf2] at h
          have hcnone : dictGet cj.cache (py_tuple_str key) = none := by
            cases hopt : dictGet cj.cache (py_tuple_str key) with
            | none => rfl
            | some v => exact absurd (by rw [hopt]; rfl) hmem
          have hcmem : py_tuple_str key ∉ cj.cache.map Prod.fst :=
            (dictGet_eq_none_iff _ _).mp hcnone
          have htmem : py_tuple_str key ∉ cj.timings.map Prod.fst := by
            rw [← hkeys]; exact hcmem
          have htnone : dictGet cj.timings (py_tuple_str key) = none :=
            (dictGet_eq_none_iff _ _).mpr htmem
          refine ih _ _ _ cj2 used2 ch2 ?_ h
          show (dictSet cj.cache (py_tuple_str key) (config_str config)).map
              Prod.fst =
            (dictSet cj.timings (py_tuple_str key) _).map Prod.fst
          rw [dictSet_eq_append _ _ _ hcmem, dictSet_eq_append _ _ _ htmem]
          simp [hkeys]

end AddLoopLemmas2

/-- Looking a folder up on disk after a full flush: flushed records win,
anything else is unchanged (for a well-formed, duplicate-free record map). -/
theorem dictGet_write_all {τ : Type} :
    ∀ (m d : List (PyStr × CacheJson τ)) (f : PyStr), (m.map Prod.fst).Nodup →
      dictGet (write_all m d) f =
        match dictGet m f with
        | some v => some v
        | none => dictGet d f := by
  intro m
  induction m with
  | nil => intro d f _; rfl
  | cons p rest ih =>
    obtain ⟨k, v⟩ := p
    intro d f hnd
    simp only [List.map_cons, List.nodup_cons] at hnd
    by_cases hkf : k = f
    · subst hkf
      have hnone : dictGet rest k = none :=
        (dictGet_eq_none_iff _ _).mpr hnd.1
      simp only [write_all, dictGet, if_pos rfl]
      rw [ih (dictSet d k v) k hnd.2, hnone]
      simp only []
      exact dictGet_dictSet_self d k v
    · simp only [write_all, dictGet, if_neg hkf]
      rw [ih (dictSet d k v) f hnd.2]
      cases hrf : dictGet rest f with
      | some w => simp only []
      | none =>
        simp only []
        exact dictGet_dictSet_ne d k f v hkf

/-- The record `add_autotuner_cache` starts from for a folder: the in-memory
record if one exists, otherwise a fresh template. -/
def pre_record {τ : Type} [DecidableEq τ] [Zero τ] (s : StoreState τ) (F : PyStr)
    (fn : Fn) (cl : Nat) : CacheJson τ :=
  match dictGet s.fn_storage F with
  | some r => r
  | none => get_cache_template fn cl

/-- Inversion principle for a successful `add_with_folder` call. -/
theorem add_with_folder_inv {τ : Type} [DecidableEq τ] [Zero τ] [Add τ]
    (s s' : StoreState τ) (F : PyStr) (cache : List (List PVal × Config))
    (fn : Fn) (cl : Nat) (tms : List (List PVal × PyTimings τ)) (rep wu bt : τ)
    (h : add_with_folder s F cache fn cl tms rep wu bt = some s') :
    ∃ cj0 used0 cj2 used2 ch2,
      cj0 = pre_record s F fn cl ∧
      ((dictGet s.fn_storage F = none ∧ cj0 = get_cache_template fn cl ∧
          used0 = ([] : List Config)) ∨
        (dictGet s.fn_storage F = some cj0 ∧
          dictGet s.used_configs F = some used0)) ∧
      add_loop tms rep wu cl cache cj0 used0 false = some (cj2, used2, ch2) ∧
      ((ch2 = true ∧
          s' = store_all
            { s with
              fn_storage := dictSet s.fn_storage F
                { cj2 with
                  total_bench_time_s := cj2.total_bench_time_s + bt },
              used_configs := dictSet s.used_configs F used2 }) ∨
        (ch2 = false ∧ s' = s)) := by
  simp only [add_with_folder] at h
  cases hfs : dictGet s.fn_storage F with
  | none =>
    rw [hfs] at h
    simp only [] at h
    cases hloop : add_loop tms rep wu cl cache (get_cache_template fn cl) [] false with
    | none => rw [hloop] at h; exact absurd h (by simp)
    | some trip =>
      obtain ⟨cj2, used2, ch2⟩ := trip
      rw [hloop] at h
      simp only [] at h
      have hpre : (get_cache_template fn cl : CacheJson τ) = pre_record s F fn cl := by
        rw [pre_record, hfs]
      cases ch2 with
      | true =>
        rw [if_pos rfl] at h
        exact ⟨_, [], cj2, used2, true, hpre, Or.inl ⟨rfl, rfl, rfl⟩, hloop,
          Or.inl ⟨rfl, ((Option.some.injEq _ _).mp h).symm⟩⟩
      | false =>
        rw [if_neg (by simp)] at h
        exact ⟨_, [], cj2, used2, false, hpre, Or.inl ⟨rfl, rfl, rfl⟩, hloop,
          Or.inr ⟨rfl, ((Option.some.injEq _ _).mp h).symm⟩⟩
  | some cj =>
    rw [hfs] at h
    simp only [] at h
    cases hu : dictGet s.used_configs F with
    | none => rw [hu] at h; exact absurd h (by simp)
    | some u =>
      rw [hu] at h
      simp only [] at h
      cases hloop : add_loop tms rep wu cl cache cj u false with
      | none => rw [hloop] at h; exact absurd h (by simp)
      | some trip =>
        obtain ⟨cj2, used2, ch2⟩ := trip
        rw [hloop] at h
        simp only [] at h
        have hpre : cj = pre_record s F fn cl := by
          rw [pre_record, hfs]
        cases ch2 with
        | true =>
          rw [if_pos rfl] at h
          exact ⟨_, u, cj2, used2, true, hpre, Or.inr ⟨rfl, rfl⟩, hloop,
            Or.inl ⟨rfl, ((Option.some.injEq _ _).mp h).symm⟩⟩
        | false =>
          rw [if_neg (by simp)] at h
          exact ⟨_, u, cj2, used2, false, hpre, Or.inr ⟨rfl, rfl⟩, hloop,
            Or.inr ⟨rfl, ((Option.some.injEq _ _).mp h).symm⟩⟩
/-! ## Claim C2 -/

/-- **C2** — Merge-only, first-writer-wins cache: an entry already present
in a record's cache map (for any folder) is never overwritten by any
`add_autotuner_cache` call; in particular, when `add` is called twice with
the same runtime-key and different winning configurations, the first stored
value persists unchanged and the second call's value is discarded. -/
theorem c2_add_never_overwrites {τ : Type} [DecidableEq τ] [Zero τ] [Add τ]
    (s s' : StoreState τ) (tag : PyStr) (cache : List (List PVal × Config))
    (fn : Fn) (chash khash phash : PyStr) (cl : Nat)
    (tms : List (List PVal × PyTimings τ)) (rep wu bt : τ)
    (h : add_autotuner_cache s tag cache fn chash khash phash cl tms rep wu bt =
      some s')
    (folder : PyStr) (r : CacheJson τ) (k v : PyStr)
    (hr : dictGet s.fn_storage folder = some r)
    (hk : dictGet r.cache k = some v) :
    ∃ r2, dictGet s'.fn_storage folder = some r2 ∧ dictGet r2.cache k = some v := by
  simp only [add_autotuner_cache] at h
  cases hfn : fn_name_of fn with
  | none => rw [hfn] at h; exact absurd h (by simp)
  | some n =>
    rw [hfn] at h
    simp only [] at h
    obtain ⟨cj0, used0, cj2, used2, ch2, hpre, hstart, hloop, hres⟩ :=
      add_with_folder_inv _ _ _ _ _ _ _ _ _ _ h
    rcases hres with ⟨hch, hs'⟩ | ⟨hch, hs'⟩
    · subst hs'
      by_cases hFf :
          folder = get_folder_name tag n fn.hash chash khash phash
      · subst hFf
        rcases hstart with ⟨hnone, _, _⟩ | ⟨hsome, _⟩
        · rw [hr] at hnone; exact absurd hnone (by simp)
        · rw [hr] at hsome
          obtain rfl : r = cj0 := by injection hsome
          refine ⟨{ cj2 with
            total_bench_time_s := cj2.total_bench_time_s + bt }, ?_, ?_⟩
          · exact dictGet_dictSet_self s.fn_storage _ _
          · show dictGet cj2.cache k = some v
            exact add_loop_preserves_cache _ _ _ _ _ _ _ _ _ _ _ hloop k v hk
      · refine ⟨r, ?_, hk⟩
        show dictGet (dictSet s.fn_storage _ _) folder = some r
        rw [dictGet_dictSet_ne _ _ _ _ (fun he => hFf he.symm)]
        exact hr
    · subst hs'
      exact ⟨r, hr, hk⟩

/-- Concrete data: a stored timing record. -/
def ntA : TimingRecord Int :=
  { values := [TFloat.val 1], labels := ["ms".data], rep_t_ms := 10,
    warmup_t_ms := 5 }

/-- Concrete data: the folder of the concrete identity. -/
def F0 : PyStr :=
  get_folder_name tag0 "kern".data "codehash".data "cfgA".data "keyA".data
    "parA".data

/-- Concrete data: a record that already caches key `(4, 4)`. -/
def cjA : CacheJson Int :=
  { signature := fn0.repr, total_bench_time_s := 1, evaluated_configs := 1,
    cache := [("(4, 4)".data, config_str cfg4)],
    timings := [("(4, 4)".data, ntA)] }

/-- Concrete data: a state holding `cjA` in memory and on disk. -/
def sA : StoreState Int :=
  { fn_storage := [(F0, cjA)], used_configs := [(F0, [cfg4])],
    disk := [(F0, cjA)] }

/-- Concrete data: a different winning configuration for the same key. -/
def cfg_b : Config := { default_config with num_warps := 8 }

/-- Witness for C2: a second `add` for the already-cached key `(4, 4)` with
the different configuration `cfg_b` leaves the first stored value intact. -/
theorem c2_witness :
    ∃ r2, dictGet sA.fn_storage F0 = some r2 ∧
      dictGet r2.cache "(4, 4)".data = some (config_str cfg4) :=
  c2_add_never_overwrites sA sA tag0 [(key44, cfg_b)] fn0 "cfgA".data
    "keyA".data "parA".data 1 [(key44, PyTimings.scalar (TFloat.val 2))] 10 5 1
    (by decide) F0 cjA "(4, 4)".data (config_str cfg4) (by decide) (by decide)
/-! ## Claim C3 -/

/-- **C3** — Infinite filtering: a runtime-key whose timing sample contains
an infinite value contributes nothing to an `add_autotuner_cache` call:
dropping it from the results leaves the resulting state identical (so that
key alone changes nothing, in particular not `evaluated_configs` or
`total_bench_time_s`), and no cache or timings entry is created for it. -/
theorem c3_infinite_filtering {τ : Type} [DecidableEq τ] [Zero τ] [Add τ]
    (s s' : StoreState τ) (tag : PyStr) (cache : List (List PVal × Config))
    (fn : Fn) (chash khash phash : PyStr) (cl : Nat)
    (tms : List (List PVal × PyTimings τ)) (rep wu bt : τ) (n : PyStr)
    (k : List PVal) (tv : PyTimings τ)
    (hfn : fn_name_of fn = some n)
    (h : add_autotuner_cache s tag cache fn chash khash phash cl tms rep wu bt =
      some s')
    (hktv : dictGet tms k = some tv)
    (hinf : has_inf (timing_values tv) = true)
    (hcoll : ∀ p ∈ cache, py_tuple_str p.1 = py_tuple_str k → p.1 = k) :
    add_autotuner_cache s tag (cache.filter (fun p => p.1 ≠ k)) fn chash khash
        phash cl tms rep wu bt = some s' ∧
    (dictGet (pre_record s (get_folder_name tag n fn.hash chash khash phash)
        fn cl).cache (py_tuple_str k) = none →
     dictGet (pre_record s (get_folder_name tag n fn.hash chash khash phash)
        fn cl).timings (py_tuple_str k) = none →
     ∀ r2, dictGet s'.fn_storage
         (get_folder_name tag n fn.hash chash khash phash) = some r2 →
       dictGet r2.cache (py_tuple_str k) = none ∧
         dictGet r2.timings (py_tuple_str k) = none) := by
  have heq : ∀ (cj : CacheJson τ) (used : List Config),
      add_loop tms rep wu cl (cache.filter (fun p => p.1 ≠ k)) cj used false =
        add_loop tms rep wu cl cache cj used false :=
    fun cj used => add_loop_erase_inf_key tms rep wu cl k tv hktv hinf cache cj
      used false
  constructor
  · simp only [add_autotuner_cache, hfn] at h ⊢
    simp only [add_with_folder] at h ⊢
    cases hfs : dictGet s.fn_storage
        (get_folder_name tag n fn.hash chash khash phash) with
    | none =>
      rw [hfs] at h
      simp only [] at h ⊢
      rw [heq]
      exact h
    | some cj =>
      rw [hfs] at h
      simp only [] at h ⊢
      cases hu : dictGet s.used_configs
          (get_folder_name tag n fn.hash chash khash phash) with
      | none => rw [hu] at h; exact h
      | some u =>
        rw [hu] at h
        simp only [] at h ⊢
        rw [heq]
        exact h
  · intro hc ht r2 hr2
    simp only [add_autotuner_cache, hfn] at h
    obtain ⟨cj0, used0, cj2, used2, ch2, hpre, _, hloop, hres⟩ :=
      add_with_folder_inv _ _ _ _ _ _ _ _ _ _ h
    rw [← hpre] at hc ht
    rcases hres with ⟨hch, hs'⟩ | ⟨hch, hs'⟩
    · subst hs'
      have hr2' : dictGet
          (store_all
            { s with
              fn_storage := dictSet s.fn_storage
                (get_folder_name tag n fn.hash chash khash phash)
                { cj2 with
                  total_bench_time_s := cj2.total_bench_time_s + bt },
              used_configs := dictSet s.used_configs
                (get_folder_name tag n fn.hash chash khash phash)
                used2 }).fn_storage
          (get_folder_name tag n fn.hash chash khash phash) =
          some { cj2 with
            total_bench_time_s := cj2.total_bench_time_s + bt } :=
        dictGet_dictSet_self s.fn_storage _ _
      rw [hr2'] at hr2
      obtain rfl : r2 = { cj2 with
          total_bench_time_s := cj2.total_bench_time_s + bt } := by
        injection hr2 with hr2; exact hr2.symm
      have hnc := add_loop_no_create tms rep wu cl k tv hktv hinf cache cj0
        used0 false cj2 used2 ch2 hcoll hc ht hloop
      exact hnc
    · subst hs'
      have hpre2 : cj0 = r2 := by
        rw [hpre]
        simp only [pre_record, hr2]
      rw [hpre2] at hc ht
      exact ⟨hc, ht⟩
/-- Witness for C3: adding `(4, 4)` with an infinite timing sample to a
fresh state is the same call as adding nothing at all — the state is
unchanged. -/
theorem c3_witness :
    add_autotuner_cache s0 tag0
      (([(key44, cfg4)] : List (List PVal × Config)).filter
        (fun p => p.1 ≠ key44))
      fn0 "cfgA".data "keyA".data "parA".data 1
      [(key44, PyTimings.scalar TFloat.inf)] 10 5 1 = some s0 :=
  (c3_infinite_filtering s0 s0 tag0 [(key44, cfg4)] fn0 "cfgA".data "keyA".data
    "parA".data 1 [(key44, PyTimings.scalar TFloat.inf)] 10 5 1 "kern".data
    key44 (PyTimings.scalar TFloat.inf) (by decide) (by decide) (by decide)
    (by decide) (by decide)).1

/-! ## Claim C5 -/

/-- **C5** — Cache/timings key-set invariant: the empty template starts with
both maps empty, and every successful `add_autotuner_cache` call preserves
the invariant that each record's cache map and timings map hold exactly the
same keys. -/
theorem c5_cache_timings_key_sets {τ : Type} [DecidableEq τ] [Zero τ] [Add τ]
    (s s' : StoreState τ) (tag : PyStr) (cache : List (List PVal × Config))
    (fn : Fn) (chash khash phash : PyStr) (cl : Nat)
    (tms : List (List PVal × PyTimings τ)) (rep wu bt : τ)
    (h : add_autotuner_cache s tag cache fn chash khash phash cl tms rep wu bt =
      some s') :
    ((get_cache_template fn cl : CacheJson τ).cache = [] ∧
      (get_cache_template fn cl : CacheJson τ).timings = []) ∧
    ((∀ f r, dictGet s.fn_storage f = some r →
        r.cache.map Prod.fst = r.timings.map Prod.fst) →
      ∀ f r2, dictGet s'.fn_storage f = some r2 →
        r2.cache.map Prod.fst = r2.timings.map Prod.fst) := by
  refine ⟨⟨rfl, rfl⟩, ?_⟩
  intro hinv f r2 hr2
  cases hfn : fn_name_of fn with
  | none => rw [add_autotuner_cache, hfn] at h; exact absurd h (by simp)
  | some n =>
    simp only [add_autotuner_cache, hfn] at h
    obtain ⟨cj0, used0, cj2, used2, ch2, hpre, hstart, hloop, hres⟩ :=
      add_with_folder_inv _ _ _ _ _ _ _ _ _ _ h
    have hkeys0 : cj0.cache.map Prod.fst = cj0.timings.map Prod.fst := by
      rcases hstart with ⟨_, htpl, _⟩ | ⟨hsome, _⟩
      · rw [htpl]; rfl
      · exact hinv _ cj0 hsome
    rcases hres with ⟨hch, hs'⟩ | ⟨hch, hs'⟩
    · subst hs'
      by_cases hFf : f = get_folder_name tag n fn.hash chash khash phash
      · subst hFf
        have hself : dictGet
            (dictSet s.fn_storage
              (get_folder_name tag n fn.hash chash khash phash)
              { cj2 with
                total_bench_time_s := cj2.total_bench_time_s + bt })
            (get_folder_name tag n fn.hash chash khash phash) =
            some { cj2 with
              total_bench_time_s := cj2.total_bench_time_s + bt } :=
          dictGet_dictSet_self _ _ _
        rw [show dictGet
            (store_all
              { s with
                fn_storage := dictSet s.fn_storage
                  (get_folder_name tag n fn.hash chash khash phash)
                  { cj2 with
                    total_bench_time_s := cj2.total_bench_time_s + bt },
                used_configs := dictSet s.used_configs
                  (get_folder_name tag n fn.hash chash khash phash)
                  used2 }).fn_storage
            (get_folder_name tag n fn.hash chash khash phash) =
            some { cj2 with
              total_bench_time_s := cj2.total_bench_time_s + bt } from hself]
          at hr2
        obtain rfl : r2 = { cj2 with
            total_bench_time_s := cj2.total_bench_time_s + bt } := by
          injection hr2 with hr2
          exact hr2.symm
        show cj2.cache.map Prod.fst = cj2.timings.map Prod.fst
        exact add_loop_keys tms rep wu cl cache cj0 used0 false cj2 used2 ch2
          hkeys0 hloop
      · have : dictGet
            (store_all
              { s with
                fn_storage := dictSet s.fn_storage
                  (get_folder_name tag n fn.hash chash khash phash)
                  { cj2 with
                    total_bench_time_s := cj2.total_bench_time_s + bt },
                used_configs := dictSet s.used_configs
                  (get_folder_name tag n fn.hash chash khash phash)
                  used2 }).fn_storage f = dictGet s.fn_storage f :=
          dictGet_dictSet_ne _ _ _ _ (fun he => hFf he.symm)
        rw [this] at hr2
        exact hinv f r2 hr2
    · subst hs'
      exact hinv f r2 hr2

/-- Witness for C5: the record produced by adding key `(4, 4)` to a fresh
identity holds the same keys in its cache and timings maps. -/
theorem c5_witness : cjA.cache.map Prod.fst = cjA.timings.map Prod.fst :=
  (c5_cache_timings_key_sets s0 sA tag0 [(key44, cfg4)] fn0 "cfgA".data
    "keyA".data "parA".data 1 [(key44, PyTimings.scalar (TFloat.val 1))] 10 5 1
    (by decide)).2
    (fun f r hfr => by simp [s0, dictGet] at hfr) F0 cjA (by decide)
/-! ## Claim C8 -/

/-- **C8** — No-op adds leave the state untouched, mutating adds flush
everything: if every key in the results is already cached or has an infinite
timing sample, `add_autotuner_cache` changes nothing (no bench-time
increment, no disk write); otherwise the record's `total_bench_time_s` is
incremented by exactly `bench_time` and the entire in-memory index is
written through to disk. -/
theorem c8_noop_or_flush {τ : Type} [DecidableEq τ] [Zero τ] [Add τ]
    (s s' : StoreState τ) (tag : PyStr) (cache : List (List PVal × Config))
    (fn : Fn) (chash khash phash : PyStr) (cl : Nat)
    (tms : List (List PVal × PyTimings τ)) (rep wu bt : τ) (n : PyStr)
    (hfn : fn_name_of fn = some n)
    (h : add_autotuner_cache s tag cache fn chash khash phash cl tms rep wu bt =
      some s') :
    ((∀ p ∈ cache, key_skipped_b
        (pre_record s (get_folder_name tag n fn.hash chash khash phash) fn cl)
        tms p = true) → s' = s) ∧
    ((¬ ∀ p ∈ cache, key_skipped_b
        (pre_record s (get_folder_name tag n fn.hash chash khash phash) fn cl)
        tms p = true) →
      ∃ r2, dictGet s'.fn_storage
          (get_folder_name tag n fn.hash chash khash phash) = some r2 ∧
        r2.total_bench_time_s =
          (pre_record s (get_folder_name tag n fn.hash chash khash phash)
            fn cl).total_bench_time_s + bt ∧
        s'.disk = write_all s'.fn_storage s.disk) := by
  simp only [add_autotuner_cache, hfn] at h
  obtain ⟨cj0, used0, cj2, used2, ch2, hpre, hstart, hloop, hres⟩ :=
    add_with_folder_inv _ _ _ _ _ _ _ _ _ _ h
  constructor
  · intro hskip
    rw [← hpre] at hskip
    have hnoop := add_loop_skip_all tms rep wu cl cache cj0 used0 false hskip
    rw [hnoop] at hloop
    obtain ⟨rfl, rfl, rfl⟩ : cj2 = cj0 ∧ used2 = used0 ∧ ch2 = false := by
      have := (Option.some.injEq _ _).mp hloop
      exact ⟨congrArg (fun t => t.1) this |>.symm,
        congrArg (fun t => t.2.1) this |>.symm,
        congrArg (fun t => t.2.2) this |>.symm⟩
    rcases hres with ⟨hch, _⟩ | ⟨_, hs'⟩
    · exact absurd hch (by simp)
    · exact hs'
  · intro hns
    rcases hres with ⟨hch, hs'⟩ | ⟨hch, hs'⟩
    · subst hs'
      refine ⟨{ cj2 with
        total_bench_time_s := cj2.total_bench_time_s + bt }, ?_, ?_, ?_⟩
      · exact dictGet_dictSet_self s.fn_storage _ _
      · show cj2.total_bench_time_s + bt = _ + bt
        have := add_loop_total_sig tms rep wu cl cache cj0 used0 false cj2
          used2 ch2 hloop
        rw [this.1, hpre]
      · rfl
    · subst hch
      obtain ⟨rfl, rfl, hskip⟩ :=
        add_loop_no_change tms rep wu cl cache cj0 used0 cj2 used2 hloop
      rw [← hpre] at hns
      exact absurd hskip hns

/-- Witness for C8: adding key `(4, 4)` with a finite timing to a fresh
identity increments the record's total bench time by the bench time and
flushes the index to disk. -/
theorem c8_witness :
    ∃ r2, dictGet sA.fn_storage F0 = some r2 ∧
      r2.total_bench_time_s =
        (pre_record s0 F0 fn0 1).total_bench_time_s + 1 ∧
      sA.disk = write_all sA.fn_storage s0.disk :=
  (c8_noop_or_flush s0 sA tag0 [(key44, cfg4)] fn0 "cfgA".data "keyA".data
    "parA".data 1 [(key44, PyTimings.scalar (TFloat.val 1))] 10 5 1 "kern".data
    (by decide) (by decide)).2 (by decide)
/-- Inversion principle for a successful `restore_with_folder` call. -/
theorem restore_with_folder_inv {τ : Type} [DecidableEq τ] [Zero τ]
    (s : StoreState τ) (F : PyStr) (fn : Fn)
    (r1 : List (List PVal × Config)) (s1 : StoreState τ)
    (h : restore_with_folder s F fn = some (r1, s1)) :
    (dictGet s.disk F = none ∧ r1 = [] ∧
      s1.fn_storage = dictSet s.fn_storage F (get_cache_template fn 0) ∧
      s1.used_configs = dictSet s.used_configs F [] ∧
      s1.disk =
        write_all (dictSet s.fn_storage F (get_cache_template fn 0)) s.disk) ∨
    (∃ cj used, dictGet s.disk F = some cj ∧
      restore_loop cj.cache [] [] = some (r1, used) ∧
      s1.fn_storage = dictSet s.fn_storage F cj ∧
      s1.used_configs = dictSet s.used_configs F used ∧
      s1.disk = s.disk) := by
  simp only [restore_with_folder] at h
  cases hd : dictGet s.disk F with
  | none =>
    rw [hd] at h
    simp only [Option.some.injEq, Prod.mk.injEq] at h
    refine Or.inl ⟨rfl, h.1.symm, ?_, ?_, ?_⟩ <;> rw [← h.2] <;> rfl
  | some cj =>
    rw [hd] at h
    simp only [] at h
    cases hloop : restore_loop cj.cache [] [] with
    | none => rw [hloop] at h; exact absurd h (by simp)
    | some pr =>
      obtain ⟨ret, used⟩ := pr
      rw [hloop] at h
      simp only [Option.some.injEq, Prod.mk.injEq] at h
      refine Or.inr ⟨cj, used, rfl, ?_, ?_, ?_, ?_⟩
      · rw [hloop, h.1]
      · rw [← h.2]
      · rw [← h.2]
      · rw [← h.2]

/-! ## Claim C7 -/

/-- **C7** — Idempotent restore: after a successful restore, restoring the
same identity again (with no intervening add) returns the same mapping and
performs no further disk change; in particular the first call on a missing
file persists one empty template that the second call simply reads back. -/
theorem c7_idempotent_restore {τ : Type} [DecidableEq τ] [Zero τ]
    (s : StoreState τ) (tag : PyStr) (fn : Fn) (chash khash phash : PyStr)
    (r1 : List (List PVal × Config)) (s1 : StoreState τ)
    (hnd : (s.fn_storage.map Prod.fst).Nodup)
    (h : restore_autotuner_cache s tag fn chash khash phash = some (r1, s1)) :
    ∃ s2, restore_autotuner_cache s1 tag fn chash khash phash = some (r1, s2) ∧
      s2.disk = s1.disk := by
  cases hfn : fn_name_of fn with
  | none => rw [restore_autotuner_cache, hfn] at h; exact absurd h (by simp)
  | some n =>
    simp only [restore_autotuner_cache, hfn] at h ⊢
    rcases restore_with_folder_inv _ _ _ _ _ h with
      ⟨hd, hr1, hfs, huc, hdisk⟩ | ⟨cj, used, hd, hloop, hfs, huc, hdisk⟩
    · subst hr1
      have hd1 : dictGet s1.disk
          (get_folder_name tag n fn.hash chash khash phash) =
          some (get_cache_template fn 0) := by
        rw [hdisk, dictGet_write_all _ _ _ (nodup_keys_dictSet _ _ _ hnd),
          dictGet_dictSet_self]
      refine ⟨{ s1 with
        fn_storage := dictSet s1.fn_storage
          (get_folder_name tag n fn.hash chash khash phash)
          (get_cache_template fn 0),
        used_configs := dictSet s1.used_configs
          (get_folder_name tag n fn.hash chash khash phash) [] }, ?_, rfl⟩
      simp only [restore_with_folder, hd1, get_cache_template, restore_loop]
    · have hd1 : dictGet s1.disk
          (get_folder_name tag n fn.hash chash khash phash) = some cj := by
        rw [hdisk, hd]
      refine ⟨{ s1 with
        fn_storage := dictSet s1.fn_storage
          (get_folder_name tag n fn.hash chash khash phash) cj,
        used_configs := dictSet s1.used_configs
          (get_folder_name tag n fn.hash chash khash phash) used }, ?_, hdisk ▸ rfl⟩
      simp only [restore_with_folder, hd1, hloop]

/-- Concrete data: the empty template record for `fn0`. -/
def cjT : CacheJson Int := get_cache_template fn0 0

/-- Concrete data: the state after the first restore of the fresh identity
on `s0` (template created in memory and persisted). -/
def sT : StoreState Int :=
  { fn_storage := [(F0, cjT)], used_configs := [(F0, [])], disk := [(F0, cjT)] }

/-- Witness for C7: restoring the fresh identity twice on the initial state
returns the empty mapping both times with no second disk change. -/
theorem c7_witness :
    ∃ s2, restore_autotuner_cache sT tag0 fn0 "cfgA".data "keyA".data
        "parA".data = some ([], s2) ∧ s2.disk = sT.disk :=
  c7_idempotent_restore s0 tag0 fn0 "cfgA".data "keyA".data "parA".data [] sT
    (by decide) (by decide)
/-! ## Claim C9 -/

/-- **C9 as stated is false**: `add_autotuner_cache` can be called (and
succeed) for an identity and still leave `get_used_configs` failing with a
lookup error — a no-op add (here: an empty result dict) never writes the
used-configuration entry.  The claim demands that after an add the
previously computed set is returned. -/
theorem c9_counterexample :
    add_autotuner_cache s0 tag0 [] fn0 "cfgA".data "keyA".data "parA".data 0 []
        0 0 0 = some s0 ∧
      get_used_configs s0 tag0 fn0 "cfgA".data "keyA".data "parA".data =
        none := by decide

/-- **C9 amended** — `get_used_configs` fails with a lookup error for every
identity whose used-configuration entry was never written (no default, no
lazy load); after a successful restore, or after an add that actually added
at least one key, it returns the previously computed set. -/
theorem c9_amended_used_configs {τ : Type} [DecidableEq τ] [Zero τ] [Add τ]
    (s : StoreState τ) (tag : PyStr) (fn : Fn) (chash khash phash : PyStr)
    (n : PyStr) (hfn : fn_name_of fn = some n) :
    (dictGet s.used_configs
        (get_folder_name tag n fn.hash chash khash phash) = none →
      get_used_configs s tag fn chash khash phash = none) ∧
    (∀ r1 s1, restore_autotuner_cache s tag fn chash khash phash =
        some (r1, s1) →
      (get_used_configs s1 tag fn chash khash phash).isSome = true) ∧
    (∀ cache cl tms rep wu bt s1,
      add_autotuner_cache s tag cache fn chash khash phash cl tms rep wu bt =
        some s1 →
      (¬ ∀ p ∈ cache, key_skipped_b
          (pre_record s (get_folder_name tag n fn.hash chash khash phash)
            fn cl) tms p = true) →
      (get_used_configs s1 tag fn chash khash phash).isSome = true) := by
  refine ⟨?_, ?_, ?_⟩
  · intro hnone
    simp only [get_used_configs, hfn]
    exact hnone
  · intro r1 s1 h
    simp only [restore_autotuner_cache, hfn] at h
    simp only [get_used_configs, hfn]
    rcases restore_with_folder_inv _ _ _ _ _ h with
      ⟨_, _, _, huc, _⟩ | ⟨cj, used, _, _, _, huc, _⟩
    · rw [huc, dictGet_dictSet_self]
      rfl
    · rw [huc, dictGet_dictSet_self]
      rfl
  · intro cache cl tms rep wu bt s1 h hns
    simp only [add_autotuner_cache, hfn] at h
    simp only [get_used_configs, hfn]
    obtain ⟨cj0, used0, cj2, used2, ch2, hpre, _, hloop, hres⟩ :=
      add_with_folder_inv _ _ _ _ _ _ _ _ _ _ h
    rcases hres with ⟨_, hs1⟩ | ⟨hch, hs1⟩
    · subst hs1
      show (dictGet (dictSet s.used_configs _ used2) _).isSome = true
      rw [dictGet_dictSet_self]
      rfl
    · subst hch
      obtain ⟨rfl, rfl, hskip⟩ :=
        add_loop_no_change tms rep wu cl cache cj0 used0 cj2 used2 hloop
      rw [← hpre] at hns
      exact absurd hskip hns

/-- Witness for the amended C9: after restoring the fresh identity, the
used-configuration query succeeds. -/
theorem c9_amended_witness :
    (get_used_configs sT tag0 fn0 "cfgA".data "keyA".data "parA".data).isSome =
      true :=
  (c9_amended_used_configs s0 tag0 fn0 "cfgA".data "keyA".data "parA".data
    "kern".data (by decide)).2.1 [] sT (by decide)
/-! ## Claim C6 -/

/-- **C6 as stated is false**: after the fresh restore / add / restore
sequence of spec §8, the final restore does *not* return the mapping keyed
by the original integer tuple `(4, 4)` — the key decoded from disk has
string elements `("4", "4")`, so looking up the integer tuple fails. -/
theorem c6_counterexample :
    c6_run = some [(key44s, cfg4)] ∧ key44s ≠ key44 ∧
      dictGet [(key44s, cfg4)] key44 = none ∧
      c6_run ≠ some [(key44, cfg4)] := by decide

/-- **C6 amended** — end-to-end key typing: the fresh restore returns the
empty mapping; after adding `{(4,4): Config(num_warps=4)}` with a finite
timing, a subsequent restore for the same identity returns
`{("4","4"): Config(num_warps=4)}`: the configuration round-trips, but the
tuple key's elements come back as the strings `"4"`, not integers. -/
theorem c6_amended_string_keys :
    (restore_autotuner_cache s0 tag0 fn0 "cfgA".data "keyA".data
        "parA".data).map Prod.fst = some [] ∧
      c6_run = some [(key44s, cfg4)] := by decide

/-! ## Claim C10 -/

/-- **C10** — The `"none"` sentinel: constructing the storage object with
the storage-root environment variable set to the literal string `"none"`
raises exactly the same missing-configuration exception as leaving the
variable unset, because `"none"` is also the fallback default used to detect
absence; a storage root literally named `none` therefore cannot be
configured. -/
theorem c10_none_sentinel (env1 env2 : List (PyStr × PyStr))
    (h1 : dictGet env1 storage_env_var = some "none".data)
    (h2 : dictGet env2 storage_env_var = none) :
    dejavu_init_storage_root env1 = Except.error missing_storage_msg ∧
      dejavu_init_storage_root env1 = dejavu_init_storage_root env2 := by
  constructor
  · simp [dejavu_init_storage_root, h1]
  · simp [dejavu_init_storage_root, h1, h2]

/-- Witness for C10 at a concrete environment. -/
theorem c10_witness :
    dejavu_init_storage_root [(storage_env_var, "none".data)] =
        Except.error missing_storage_msg ∧
      dejavu_init_storage_root [(storage_env_var, "none".data)] =
        dejavu_init_storage_root [] :=
  c10_none_sentinel [(storage_env_var, "none".data)] [] (by decide) (by decide)
/-! ## Claim C4 -/

/-- **C4** — Path derivation determinism and sensitivity: `_get_folder_name`
is a pure function of the kernel name, the four hash inputs and the tag —
identical inputs give the identical path, and changing exactly one of the
four hash inputs always changes the path. -/
theorem c4_folder_name_determinism_sensitivity
    (tag fname codeh confh keyh parh codeh2 confh2 keyh2 parh2 : PyStr) :
    get_folder_name tag fname codeh confh keyh parh =
        get_folder_name tag fname codeh confh keyh parh ∧
      (codeh2 ≠ codeh → get_folder_name tag fname codeh2 confh keyh parh ≠
        get_folder_name tag fname codeh confh keyh parh) ∧
      (confh2 ≠ confh → get_folder_name tag fname codeh confh2 keyh parh ≠
        get_folder_name tag fname codeh confh keyh parh) ∧
      (keyh2 ≠ keyh → get_folder_name tag fname codeh confh keyh2 parh ≠
        get_folder_name tag fname codeh confh keyh parh) ∧
      (parh2 ≠ parh → get_folder_name tag fname codeh confh keyh parh2 ≠
        get_folder_name tag fname codeh confh keyh parh) := by
  refine ⟨rfl, ?_, ?_, ?_, ?_⟩
  · intro hne heq
    apply hne
    simp only [get_folder_name, get_string_hash, List.append_assoc] at heq
    have h1 := List.append_cancel_left heq
    have h2 := List.append_cancel_left h1
    have h3 := List.append_cancel_left h2
    have h4 := List.append_cancel_left h3
    have h5 := List.append_cancel_left h4
    have h6 := List.append_cancel_left h5
    exact List.append_cancel_right h6
  · intro hne heq
    apply hne
    simp only [get_folder_name, get_string_hash, List.append_assoc] at heq
    have h1 := List.append_cancel_left heq
    have h2 := List.append_cancel_left h1
    have h3 := List.append_cancel_left h2
    have h4 := List.append_cancel_left h3
    exact List.append_cancel_right h4
  · intro hne heq
    apply hne
    simp only [get_folder_name, get_string_hash, List.append_assoc] at heq
    have h1 := List.append_cancel_left heq
    have h2 := List.append_cancel_left h1
    have h3 := List.append_cancel_left h2
    have h4 := List.append_cancel_left h3
    have h5 := List.append_cancel_left h4
    have h6 := List.append_cancel_left h5
    have h7 := List.append_cancel_left h6
    have h8 := List.append_cancel_left h7
    exact List.append_cancel_right h8
  · intro hne heq
    apply hne
    simp only [get_folder_name, get_string_hash, List.append_assoc] at heq
    have h1 := List.append_cancel_left heq
    have h2 := List.append_cancel_left h1
    exact List.append_cancel_right h2

/-- Witness for C4: changing only the code hash changes the concrete
path. -/
theorem c4_witness :
    get_folder_name tag0 "kern".data "otherhash".data "cfgA".data "keyA".data
        "parA".data ≠
      get_folder_name tag0 "kern".data "codehash".data "cfgA".data "keyA".data
        "parA".data :=
  (c4_folder_name_determinism_sensitivity tag0 "kern".data "codehash".data
    "cfgA".data "keyA".data "parA".data "otherhash".data "x".data "y".data
    "z".data).2.1 (by decide)
/-! ## Claim C1: entry-level decode lemmas -/

/-- Splitting a well-formed `field: value` entry on `": "`. -/
theorem pySplit_colon_two (name val : PyStr) (hn : ':' ∉ name)
    (hv : ':' ∉ val) : pySplit colon_sep (kv_entry name val) = [name, val] :=
  pySplit_two ':' [' '] name val hn hv

theorem cca_entry_num_warps (a : ConfigArgs) (v : PyStr) (n : Int)
    (hv : ':' ∉ v) (h : py_int v = some n) :
    cca_entry a (kv_entry "num_warps".data v) =
      some { a with num_warps := some n } := by
  simp only [cca_entry, pySplit_colon_two "num_warps".data v (by decide) hv,
    List.headD_cons, List.get?_cons_succ, List.get?_cons_zero]
  simp +decide [h, set_int_arg]

theorem cca_entry_num_stages (a : ConfigArgs) (v : PyStr) (n : Int)
    (hv : ':' ∉ v) (h : py_int v = some n) :
    cca_entry a (kv_entry "num_stages".data v) =
      some { a with num_stages := some n } := by
  simp only [cca_entry, pySplit_colon_two "num_stages".data v (by decide) hv,
    List.headD_cons, List.get?_cons_succ, List.get?_cons_zero]
  simp +decide [h, set_int_arg]

theorem cca_entry_num_ctas (a : ConfigArgs) (v : PyStr) (n : Int)
    (hv : ':' ∉ v) (h : py_int v = some n) :
    cca_entry a (kv_entry "num_ctas".data v) =
      some { a with num_ctas := some n } := by
  simp only [cca_entry, pySplit_colon_two "num_ctas".data v (by decide) hv,
    List.headD_cons, List.get?_cons_succ, List.get?_cons_zero]
  simp +decide [h, set_int_arg]

theorem cca_entry_ews (a : ConfigArgs) (v : PyStr) (n : Nat)
    (hv : ':' ∉ v) (h : strtobool v = some n) :
    cca_entry a (kv_entry "enable_warp_specialization".data v) =
      some { a with enable_warp_specialization := some (n != 0) } := by
  simp only [cca_entry,
    pySplit_colon_two "enable_warp_specialization".data v (by decide) hv,
    List.headD_cons, List.get?_cons_succ, List.get?_cons_zero]
  simp +decide [h]

theorem cca_entry_maxnreg_some (a : ConfigArgs) (v : PyStr) (n : Int)
    (hv : ':' ∉ v) (h : py_int v = some n) :
    cca_entry a (kv_entry "maxnreg".data v) =
      some { a with maxnreg := some (some n) } := by
  simp only [cca_entry, pySplit_colon_two "maxnreg".data v (by decide) hv,
    List.headD_cons, List.get?_cons_succ, List.get?_cons_zero]
  simp +decide [h]

theorem cca_entry_maxnreg_none (a : ConfigArgs) (v : PyStr)
    (hv : ':' ∉ v) (h : py_int v = none) :
    cca_entry a (kv_entry "maxnreg".data v) =
      some { a with maxnreg := some none } := by
  simp only [cca_entry, pySplit_colon_two "maxnreg".data v (by decide) hv,
    List.headD_cons, List.get?_cons_succ, List.get?_cons_zero]
  simp +decide [h]

theorem cca_entry_pre_hook (a : ConfigArgs) (v : PyStr) (hv : ':' ∉ v) :
    cca_entry a (kv_entry "pre_hook".data v) =
      some { a with pre_hook := some v } := by
  simp only [cca_entry, pySplit_colon_two "pre_hook".data v (by decide) hv,
    List.headD_cons, List.get?_cons_succ, List.get?_cons_zero]
  simp +decide []

theorem cca_entry_skip (a : ConfigArgs) (v : PyStr) (hv : ':' ∉ v) :
    cca_entry a (kv_entry "enable_persistent".data v) = some a := by
  simp only [cca_entry,
    pySplit_colon_two "enable_persistent".data v (by decide) hv,
    List.headD_cons, List.get?_cons_succ, List.get?_cons_zero]
  simp +decide []

theorem cca_entry_kwarg_int (a : ConfigArgs) (name v : PyStr) (n : Int)
    (hn : ':' ∉ name) (hv : ':' ∉ v)
    (hnc : name ∉ config_args) (hns : name ∉ skip_config_args)
    (h : py_int v = some n) :
    cca_entry a (kv_entry name v) =
      some { a with kwargs := dictSet a.kwargs name (.int n) } := by
  simp only [cca_entry, pySplit_colon_two name v hn hv,
    List.headD_cons, List.get?_cons_succ, List.get?_cons_zero]
  rw [if_neg hns, if_neg hnc, h]

theorem cca_entry_kwarg_bool (a : ConfigArgs) (name v : PyStr) (n : Nat)
    (hn : ':' ∉ name) (hv : ':' ∉ v)
    (hnc : name ∉ config_args) (hns : name ∉ skip_config_args)
    (h1 : py_int v = none) (h2 : strtobool v = some n) :
    cca_entry a (kv_entry name v) =
      some { a with kwargs := dictSet a.kwargs name (.bool (n != 0)) } := by
  simp only [cca_entry, pySplit_colon_two name v hn hv,
    List.headD_cons, List.get?_cons_succ, List.get?_cons_zero]
  rw [if_neg hns, if_neg hnc, h1, h2]

theorem cca_entry_kwarg_str (a : ConfigArgs) (name v : PyStr)
    (hn : ':' ∉ name) (hv : ':' ∉ v)
    (hnc : name ∉ config_args) (hns : name ∉ skip_config_args)
    (h1 : py_int v = none) (h2 : strtobool v = none) :
    cca_entry a (kv_entry name v) =
      some { a with kwargs := dictSet a.kwargs name (.str v) } := by
  simp only [cca_entry, pySplit_colon_two name v hn hv,
    List.headD_cons, List.get?_cons_succ, List.get?_cons_zero]
  rw [if_neg hns, if_neg hnc, h1, h2]
/-- A keyword value round-trips untouched: string values must avoid the two
delimiter characters and must not parse as an int or a bool (otherwise the
decoder's type inference rewrites them — see the C1 counterexample). -/
def val_okb : PVal → Bool
  | .str s => decide (',' ∉ s) && decide (':' ∉ s) &&
      decide (py_int s = none) && decide (strtobool s = none)
  | _ => true

/-- A keyword argument that round-trips: its name collides with no declared
or skipped field and avoids the delimiter characters, and its value is
`val_okb`. -/
def kw_okb (p : PyStr × PVal) : Bool :=
  decide (p.1 ∉ config_args) && decide (p.1 ∉ skip_config_args) &&
    decide (',' ∉ p.1) && decide (':' ∉ p.1) && val_okb p.2

theorem py_bool_str_chars (b : Bool) :
    ',' ∉ py_bool_str b ∧ ':' ∉ py_bool_str b := by cases b <;> decide

theorem py_int_py_bool_str (b : Bool) : py_int (py_bool_str b) = none := by
  cases b <;> decide

theorem strtobool_py_bool_str (b : Bool) :
    strtobool (py_bool_str b) = some (if b then 1 else 0) := by
  cases b <;> decide

theorem py_val_str_chars (v : PVal) (h : val_okb v = true) :
    ',' ∉ py_val_str v ∧ ':' ∉ py_val_str v := by
  cases v with
  | int n => exact ⟨comma_not_mem_py_int_str n, colon_not_mem_py_int_str n⟩
  | bool b => exact py_bool_str_chars b
  | str s =>
    simp only [val_okb, Bool.and_eq_true, decide_eq_true_eq] at h
    exact ⟨h.1.1.1, h.1.1.2⟩

theorem kv_entry_no_comma (name vs : PyStr) (h1 : ',' ∉ name)
    (h2 : ',' ∉ vs) : ',' ∉ kv_entry name vs := by
  intro hmem
  rcases List.mem_append.mp hmem with hm | hm
  · rcases List.mem_append.mp hm with hm2 | hm2
    · exact h1 hm2
    · revert hm2; decide
  · exact h2 hm

theorem cca_loop_append (l1 l2 : List PyStr) (a : ConfigArgs) :
    cca_loop (l1 ++ l2) a =
      match cca_loop l1 a with
      | some a2 => cca_loop l2 a2
      | none => none := by
  induction l1 generalizing a with
  | nil => rfl
  | cons e rest ih =>
    simp only [List.cons_append, cca_loop]
    cases cca_entry a e with
    | none => rfl
    | some a2 => exact ih a2

theorem bne_if_zero (b : Bool) : ((if b then 1 else 0 : Nat) != 0) = b := by
  cases b <;> rfl

/-- A round-trip-safe keyword entry decodes to exactly its original value. -/
theorem cca_entry_kwarg (a : ConfigArgs) (name : PyStr) (v : PVal)
    (hcl : ':' ∉ name) (hnc : name ∉ config_args)
    (hns : name ∉ skip_config_args) (hval : val_okb v = true) :
    cca_entry a (kv_entry name (py_val_str v)) =
      some { a with kwargs := dictSet a.kwargs name v } := by
  cases v with
  | int k =>
    exact cca_entry_kwarg_int a name (py_int_str k) k hcl
      (colon_not_mem_py_int_str k) hnc hns (py_int_py_int_str k)
  | bool b =>
    have hb := cca_entry_kwarg_bool a name (py_bool_str b) (if b then 1 else 0)
      hcl (py_bool_str_chars b).2 hnc hns (py_int_py_bool_str b)
      (strtobool_py_bool_str b)
    rw [bne_if_zero] at hb
    exact hb
  | str ss =>
    simp only [val_okb, Bool.and_eq_true, decide_eq_true_eq] at hval
    exact cca_entry_kwarg_str a name ss hcl hval.1.1.2 hnc hns hval.1.2 hval.2

/-- Decoding the keyword-argument part of the encoding appends exactly the
original keyword list. -/
theorem cca_loop_kwargs :
    ∀ (l : List (PyStr × PVal)) (a : ConfigArgs),
      (∀ p ∈ l, kw_okb p = true) → (l.map Prod.fst).Nodup →
      (∀ p ∈ l, p.1 ∉ a.kwargs.map Prod.fst) →
      cca_loop (l.map (fun p => kv_entry p.1 (py_val_str p.2))) a =
        some { a with kwargs := a.kwargs ++ l } := by
  intro l
  induction l with
  | nil =>
    intro a _ _ _
    simp [cca_loop]
  | cons p rest ih =>
    obtain ⟨name, v⟩ := p
    intro a hok hnd hdisj
    have hokp := hok (name, v) (List.mem_cons_self _ _)
    simp only [kw_okb, Bool.and_eq_true, decide_eq_true_eq] at hokp
    obtain ⟨⟨⟨⟨hnc, hns⟩, hcm⟩, hcl⟩, hval⟩ := hokp
    simp only [List.map_cons, List.nodup_cons] at hnd
    have hset : dictSet a.kwargs name v = a.kwargs ++ [(name, v)] :=
      dictSet_eq_append _ _ _ (hdisj (name, v) (List.mem_cons_self _ _))
    have hok2 : ∀ p ∈ rest, kw_okb p = true :=
      fun q hq => hok q (List.mem_cons_of_mem _ hq)
    have hdisj2 : ∀ p ∈ rest,
        p.1 ∉ (a.kwargs ++ [(name, v)]).map Prod.fst := by
      intro q hq hmem
      rw [List.map_append, List.mem_append] at hmem
      rcases hmem with hmem | hmem
      · exact hdisj q (List.mem_cons_of_mem _ hq) hmem
      · simp only [List.map_cons, List.map_nil, List.mem_singleton] at hmem
        exact hnd.1 (hmem ▸ List.mem_map_of_mem Prod.fst hq)
    have htail : cca_loop (rest.map (fun p => kv_entry p.1 (py_val_str p.2)))
        { a with kwargs := a.kwargs ++ [(name, v)] } =
        some { a with kwargs := (a.kwargs ++ [(name, v)]) ++ rest } :=
      ih { a with kwargs := a.kwargs ++ [(name, v)] } hok2 hnd.2 hdisj2
    have hfinal : (a.kwargs ++ [(name, v)]) ++ rest =
        a.kwargs ++ ((name, v) :: rest) := by
      rw [List.append_assoc]
      rfl
    simp only [List.map_cons, cca_loop,
      cca_entry_kwarg a name v hcl hnc hns hval]
    rw [hset, htail, hfinal]
theorem maxnreg_str_chars (m : Option Int) :
    ',' ∉ maxnreg_str m ∧ ':' ∉ maxnreg_str m := by
  cases m with
  | some n =>
    exact ⟨comma_not_mem_py_int_str n, colon_not_mem_py_int_str n⟩
  | none => decide

theorem cca_entry_ews_bool (a : ConfigArgs) (b : Bool) :
    cca_entry a (kv_entry "enable_warp_specialization".data (py_bool_str b)) =
      some { a with enable_warp_specialization := some b } := by
  have h := cca_entry_ews a (py_bool_str b) (if b then 1 else 0)
    (py_bool_str_chars b).2 (strtobool_py_bool_str b)
  rw [bne_if_zero] at h
  exact h

theorem cca_entry_skip_bool (a : ConfigArgs) (b : Bool) :
    cca_entry a (kv_entry "enable_persistent".data (py_bool_str b)) = some a :=
  cca_entry_skip a (py_bool_str b) (py_bool_str_chars b).2

theorem cca_entry_maxnreg_val (a : ConfigArgs) (m : Option Int) :
    cca_entry a (kv_entry "maxnreg".data (maxnreg_str m)) =
      some { a with maxnreg := some m } := by
  cases m with
  | some n =>
    exact cca_entry_maxnreg_some a (py_int_str n) n
      (colon_not_mem_py_int_str n) (py_int_py_int_str n)
  | none => exact cca_entry_maxnreg_none a "None".data (by decide) (by decide)

/-- The declared-field suffix of the encoding of `c`. -/
def fixed_entries (c : Config) : List PyStr :=
  [kv_entry "num_warps".data (py_int_str c.num_warps),
   kv_entry "num_ctas".data (py_int_str c.num_ctas),
   kv_entry "num_stages".data (py_int_str c.num_stages),
   kv_entry "enable_warp_specialization".data
     (py_bool_str c.enable_warp_specialization),
   kv_entry "enable_persistent".data (py_bool_str c.enable_persistent),
   kv_entry "maxnreg".data (maxnreg_str c.maxnreg),
   kv_entry "pre_hook".data c.pre_hook]

/-- Decoding the declared-field suffix records every declared field; the
skip field `enable_persistent` is dropped on the way. -/
theorem cca_loop_fixed (c : Config) (a : ConfigArgs) (hph : ':' ∉ c.pre_hook) :
    cca_loop (fixed_entries c) a =
      some
        { a with
          num_warps := some c.num_warps
          num_ctas := some c.num_ctas
          num_stages := some c.num_stages
          enable_warp_specialization := some c.enable_warp_specialization
          maxnreg := some c.maxnreg
          pre_hook := some c.pre_hook } := by
  have step : ∀ (e : PyStr) (rest : List PyStr) (x y : ConfigArgs),
      cca_entry x e = some y → cca_loop (e :: rest) x = cca_loop rest y := by
    intro e rest x y h
    rw [cca_loop, h]
  rw [fixed_entries,
    step _ _ _ _ (cca_entry_num_warps a _ c.num_warps
      (colon_not_mem_py_int_str _) (py_int_py_int_str _)),
    step _ _ _ _ (cca_entry_num_ctas _ _ c.num_ctas
      (colon_not_mem_py_int_str _) (py_int_py_int_str _)),
    step _ _ _ _ (cca_entry_num_stages _ _ c.num_stages
      (colon_not_mem_py_int_str _) (py_int_py_int_str _)),
    step _ _ _ _ (cca_entry_ews_bool _ c.enable_warp_specialization),
    step _ _ _ _ (cca_entry_skip_bool _ c.enable_persistent),
    step _ _ _ _ (cca_entry_maxnreg_val _ c.maxnreg),
    step _ _ _ _ (cca_entry_pre_hook _ c.pre_hook hph)]
  rfl
/-- A configuration with a keyword argument whose value is the *string*
`"5"`. -/
def cfgX : Config :=
  { default_config with kwargs := [("BLOCK".data, PVal.str "5".data)] }

/-- **C1 as stated is false**: decoding the encoding of `cfgX` succeeds, but
the keyword argument `BLOCK` comes back as the *integer* 5 (the decoder's
type inference converts any int-parseable string), so the reconstruction is
not equal to `cfgX` on its keyword fields. -/
theorem c1_counterexample :
    create_config_args (config_str cfgX) =
      some
        { pre_hook := some [], num_warps := some 4, num_stages := some 3,
          num_ctas := some 1, enable_warp_specialization := some false,
          maxnreg := some none, kwargs := [("BLOCK".data, PVal.int 5)] } ∧
    [("BLOCK".data, PVal.int 5)] ≠ cfgX.kwargs ∧
    PVal.int 5 ≠ PVal.str "5".data := by decide

/-- **C1 amended** — ConfigCodec round-trip: for every configuration whose
keyword-argument names are distinct, collide with no declared or skipped
field name and avoid the delimiter characters `','`/`':'`, and whose
string-typed values (including `pre_hook`) avoid those delimiters and do not
parse as an int or bool, `decode(encode(c))` reconstructs every declared and
keyword field of `c`; the skip-set field `enable_persistent` is dropped and
comes back as its default. -/
theorem c1_amended_roundtrip (c : Config)
    (hnd : (c.kwargs.map Prod.fst).Nodup)
    (hkw : ∀ p ∈ c.kwargs, kw_okb p = true)
    (hph1 : ',' ∉ c.pre_hook) (hph2 : ':' ∉ c.pre_hook) :
    create_config_args (config_str c) =
      some
        { pre_hook := some c.pre_hook, num_warps := some c.num_warps,
          num_stages := some c.num_stages, num_ctas := some c.num_ctas,
          enable_warp_specialization := some c.enable_warp_specialization,
          maxnreg := some c.maxnreg, kwargs := c.kwargs } ∧
    (create_config_args (config_str c)).map config_of_args =
      some { c with enable_persistent := false } := by
  have hparts : ∀ p ∈ (c.kwargs.map (fun p => kv_entry p.1 (py_val_str p.2)) ++
      fixed_entries c), ',' ∉ p := by
    intro p hp
    rcases List.mem_append.mp hp with hp | hp
    · obtain ⟨q, hq, rfl⟩ := List.mem_map.mp hp
      have hokq := hkw q hq
      simp only [kw_okb, Bool.and_eq_true, decide_eq_true_eq] at hokq
      exact kv_entry_no_comma _ _ hokq.1.1.2 (py_val_str_chars q.2 hokq.2).1
    · simp only [fixed_entries, List.mem_cons, List.not_mem_nil, or_false]
        at hp
      rcases hp with rfl | rfl | rfl | rfl | rfl | rfl | rfl
      · exact kv_entry_no_comma _ _ (by decide) (comma_not_mem_py_int_str _)
      · exact kv_entry_no_comma _ _ (by decide) (comma_not_mem_py_int_str _)
      · exact kv_entry_no_comma _ _ (by decide) (comma_not_mem_py_int_str _)
      · exact kv_entry_no_comma _ _ (by decide) (py_bool_str_chars _).1
      · exact kv_entry_no_comma _ _ (by decide) (py_bool_str_chars _).1
      · exact kv_entry_no_comma _ _ (by decide) (maxnreg_str_chars _).1
      · exact kv_entry_no_comma _ _ (by decide) hph1
  have hsplit : pySplit comma_sep (config_str c) =
      c.kwargs.map (fun p => kv_entry p.1 (py_val_str p.2)) ++
        fixed_entries c :=
    pySplit_join_sep ',' [' '] _ (by simp [fixed_entries]) hparts
  have hempty : ∀ p ∈ c.kwargs,
      p.1 ∉ (ConfigArgs.empty.kwargs).map Prod.fst := by
    intro q _ hmem
    simp [ConfigArgs.empty] at hmem
  have hkwloop := cca_loop_kwargs c.kwargs ConfigArgs.empty hkw hnd hempty
  have h1 : create_config_args (config_str c) =
      some
        { pre_hook := some c.pre_hook, num_warps := some c.num_warps,
          num_stages := some c.num_stages, num_ctas := some c.num_ctas,
          enable_warp_specialization := some c.enable_warp_specialization,
          maxnreg := some c.maxnreg, kwargs := c.kwargs } := by
    show cca_loop (pySplit comma_sep (config_str c)) ConfigArgs.empty = _
    rw [hsplit, cca_loop_append, hkwloop]
    simp only []
    rw [cca_loop_fixed c _ hph2]
    rfl
  exact ⟨h1, by rw [h1]; rfl⟩

/-- A configuration exercising every round-trip-safe field kind. -/
def cfgW : Config :=
  { kwargs := [("BLOCK".data, PVal.int 64), ("EVEN".data, PVal.bool true),
      ("MODE".data, PVal.str "fast".data)],
    num_warps := 8, num_ctas := 2, num_stages := 5,
    enable_warp_specialization := true, enable_persistent := true,
    maxnreg := some 32, pre_hook := "hook".data }

/-- Witness for the amended C1 at `cfgW`. -/
theorem c1_amended_witness :
    create_config_args (config_str cfgW) =
      some
        { pre_hook := some "hook".data, num_warps := some 8,
          num_stages := some 5, num_ctas := some 2,
          enable_warp_specialization := some true, maxnreg := some (some 32),
          kwargs := cfgW.kwargs } ∧
    (create_config_args (config_str cfgW)).map config_of_args =
      some { cfgW with enable_persistent := false } :=
  c1_amended_roundtrip cfgW (by decide) (by decide) (by decide) (by decide)
end DejavuStorage

